import Mathlib

/-!
Verification development for the `aidc-toolkit/utility` package.

The development shallowly embeds the core of the package:

* `src/transformer.ts` — the domain-bounded reversible value transformer
  (`IdentityTransformer` and `EncryptionTransformer` with shuffle/xor rounds
  and cycle walking);
* `src/sequencer.ts` — the `Sequencer` range abstraction (the stateful
  iterator variant with `next`/`reset`);
* the character-set codec (`CharacterSetValidator`/`CharacterSetCreator`)
  with its exclusion domain tables and the all-numeric shift.

JavaScript `bigint` values are embedded as `Nat` (all values handled by the
core are validated non-negative) or as `Int` where negative values can occur
(sequencer bounds).  `x & 0xFF`, `x >> 8`, `x ^ y`, `x | y` on non-negative
bigints are `Nat.land`/`Nat.shiftRight`/`Nat.xor`/`Nat.lor`.  Fallible
operations (which `throw` in the source) return `Option`.
-/

namespace AidcUtility

/-! ## Byte conversions (`EncryptionTransformer.valueToBytes` / `bytesToValue`) -/

/-- `EncryptionTransformer.valueToBytes`: big-endian byte array of `value`,
`domainBytes` long.  The source loop fills indexes `domainBytes-1 .. 0` with
`reducedValue & 0xFF`, shifting `reducedValue` right by 8 bits each step, so
the least-significant byte lands at the end of the array. -/
def valueToBytes : Nat → Nat → List Nat
  | 0, _ => []
  | B + 1, v => valueToBytes B (v >>> 8) ++ [v &&& 0xFF]

/-- `EncryptionTransformer.bytesToValue`: `bytes.reduce((acc, byte) => acc << 8n | byte, 0n)`. -/
def bytesToValue (bs : List Nat) : Nat :=
  bs.foldl (fun acc byte => (acc <<< 8) ||| byte) 0

/-! ## Key schedule (`EncryptionTransformer.constructor`) -/

/-- The key-byte extraction loop: repeatedly take the least-significant byte
of the reduced key (`reducedKey & 0xFF`) and shift right 8 bits until zero.
The list is in extraction order (least-significant byte first). -/
def extractKeyBytes (key : Nat) : List Nat :=
  if h : key = 0 then []
  else (key &&& 0xFF) :: extractKeyBytes (key >>> 8)
  decreasing_by
    simp only [Nat.shiftRight_eq_div_pow]
    exact Nat.div_lt_self (Nat.pos_of_ne_zero h) (by norm_num)

/-- The `domainBytes` loop: number of bytes needed for `domain - 1`
(count of right-shifts by 8 until zero). -/
def byteLen (n : Nat) : Nat :=
  if h : n = 0 then 0 else byteLen (n >>> 8) + 1
  decreasing_by
    simp only [Nat.shiftRight_eq_div_pow]
    exact Nat.div_lt_self (Nat.pos_of_ne_zero h) (by norm_num)

/-- `EncryptionTransformer.BITS`. -/
def BITS : List Nat := [0x01, 0x02, 0x04, 0x08, 0x10, 0x20, 0x40, 0x80]

/-- `EncryptionTransformer.INVERSE_BITS`. -/
def INVERSE_BITS : List Nat := [0xFE, 0xFD, 0xFB, 0xF7, 0xEF, 0xDF, 0xBF, 0x7F]

/-- The read-only state of an `EncryptionTransformer` after construction. -/
structure EncParams where
  domain : Nat
  domainBytes : Nat
  xorBytes : List Nat
  bits : List Nat
  inverseBits : List Nat
  rounds : Nat
deriving DecidableEq

/-- `EncryptionTransformer` constructor body (after the tweak ≥ 0 check).
`xorBytes.unshift` builds the extracted bytes in reverse order while
`bits.push`/`inverseBits.push` keep extraction order; for single-byte domains
all xor bytes are folded into one, masked to the lowest mask covering the
domain, with a single round and the arbitrary first bit. -/
def mkEnc (domain tweak : Nat) : EncParams :=
  let domainBytes := byteLen (domain - 1)
  let extracted := extractKeyBytes (domain * tweak * 603868999)
  let xorBytes := extracted.reverse
  let bits := extracted.map (fun keyByte => BITS.getD (keyByte &&& 0x07) 0)
  let inverseBits := extracted.map (fun keyByte => INVERSE_BITS.getD (keyByte &&& 0x07) 0)
  if domainBytes = 1 then
    let domainMask := (BITS.filter (fun bit => bit < domain)).foldl (fun acc bit => acc ||| bit) 0
    { domain := domain, domainBytes := domainBytes,
      xorBytes := [(xorBytes.foldl (fun acc xorByte => acc ^^^ xorByte) 0) &&& domainMask],
      bits := [BITS.getD 0 0], inverseBits := [INVERSE_BITS.getD 0 0], rounds := 1 }
  else
    { domain := domain, domainBytes := domainBytes,
      xorBytes := xorBytes, bits := bits, inverseBits := inverseBits,
      rounds := xorBytes.length }

/-! ## Shuffle (`EncryptionTransformer.shuffle`) -/

/-- `EncryptionTransformer.shuffle`.  Indexes whose byte has the round bit set
are collected in order, then the rest; the concatenation is the permutation.
Forward moves the entry at `shuffleIndex` to position `index`, reverse moves
the entry at `index` to position `shuffleIndex`; in both directions the tested
bit keeps its original value at the destination. -/
def shuffle (bs : List Nat) (bit inverseBit : Nat) (forward : Bool) : List Nat :=
  let n := bs.length
  let determinants := bs.map (fun byte => byte &&& bit)
  let shuffleIndexes1 := (List.range n).filter (fun i => determinants.getD i 0 != 0)
  let shuffleIndexes0 := (List.range n).filter (fun i => !(determinants.getD i 0 != 0))
  (shuffleIndexes1 ++ shuffleIndexes0).enum.foldl
    (fun acc ix =>
      -- ix.1 = index in the concatenated array, ix.2 = shuffleIndex
      if forward then
        acc.set ix.1 ((bs.getD ix.2 0 &&& inverseBit) ||| determinants.getD ix.1 0)
      else
        acc.set ix.2 ((bs.getD ix.1 0 &&& inverseBit) ||| determinants.getD ix.2 0))
    (List.replicate n 0)

/-! ## Xor (`EncryptionTransformer.xor`) -/

/-- `EncryptionTransformer.xor`: running xor chain.  The cumulative byte starts
as the round's xor byte; forward carries the xored output, reverse carries the
input byte. -/
def xorChain (forward : Bool) (cumulative : Nat) : List Nat → List Nat
  | [] => []
  | byte :: rest =>
      (byte ^^^ cumulative) ::
        xorChain forward (if forward then byte ^^^ cumulative else byte) rest

/-! ## Round passes and cycle walking (`doForward` / `doReverse`) -/

/-- One forward round: shuffle then xor. -/
def roundFwd (p : EncParams) (bs : List Nat) (round : Nat) : List Nat :=
  xorChain true (p.xorBytes.getD round 0)
    (shuffle bs (p.bits.getD round 0) (p.inverseBits.getD round 0) true)

/-- One reverse round: xor then shuffle. -/
def roundRev (p : EncParams) (bs : List Nat) (round : Nat) : List Nat :=
  shuffle (xorChain false (p.xorBytes.getD round 0) bs)
    (p.bits.getD round 0) (p.inverseBits.getD round 0) false

/-- Forward rounds `0 .. rounds-1`. -/
def fwdPass (p : EncParams) (bs : List Nat) : List Nat :=
  (List.range p.rounds).foldl (roundFwd p) bs

/-- Reverse rounds `rounds-1 .. 0`. -/
def revPass (p : EncParams) (bs : List Nat) : List Nat :=
  (List.range p.rounds).reverse.foldl (roundRev p) bs

/-- The forward cycle-walking loop of `doForward`, with explicit fuel bounding
the number of additional loop iterations (the source loop has no bound; the
fuel used by `doForward` below is provably sufficient). -/
def doForwardAux (p : EncParams) : Nat → List Nat → Nat
  | fuel, bs =>
    let bs2 := fwdPass p bs
    let tv := bytesToValue bs2
    if tv < p.domain then tv
    else match fuel with
      | 0 => tv
      | fuel' + 1 => doForwardAux p fuel' bs2

/-- `EncryptionTransformer.doForward`. -/
def doForward (p : EncParams) (v : Nat) : Nat :=
  doForwardAux p (2 ^ (8 * p.domainBytes)) (valueToBytes p.domainBytes v)

/-- The reverse cycle-walking loop of `doReverse`, with explicit fuel. -/
def doReverseAux (p : EncParams) : Nat → List Nat → Nat
  | fuel, bs =>
    let bs2 := revPass p bs
    let v := bytesToValue bs2
    if v < p.domain then v
    else match fuel with
      | 0 => v
      | fuel' + 1 => doReverseAux p fuel' bs2

/-- `EncryptionTransformer.doReverse`. -/
def doReverse (p : EncParams) (v : Nat) : Nat :=
  doReverseAux p (2 ^ (8 * p.domainBytes)) (valueToBytes p.domainBytes v)

/-! ## Transformer variants and the factory (`Transformer.get`) -/

/-- A transformer is an `IdentityTransformer` (domain only) or an
`EncryptionTransformer` (constructed from domain and tweak). -/
inductive Transformer where
  | identityT (domain : Nat)
  | encryptionT (params : EncParams)
deriving DecidableEq

/-- `Transformer.get`: `IdentityTransformer` when the tweak is undefined,
`EncryptionTransformer` when it is defined (even when it is zero).  The
in-memory cache only affects object identity of repeated calls, not the
constructed state, so it is not modelled. -/
def Transformer.get (domain : Nat) (tweak : Option Nat) : Transformer :=
  match tweak with
  | none => .identityT domain
  | some t => .encryptionT (mkEnc domain t)

/-- The domain of a transformer. -/
def Transformer.domain : Transformer → Nat
  | .identityT d => d
  | .encryptionT p => p.domain

/-- `doForward` dispatch: identity on values for `IdentityTransformer`. -/
def Transformer.forwardV : Transformer → Nat → Nat
  | .identityT _, v => v
  | .encryptionT p, v => doForward p v

/-- `doReverse` dispatch. -/
def Transformer.reverseV : Transformer → Nat → Nat
  | .identityT _, v => v
  | .encryptionT p, v => doReverse p v

/-! ## Basic byte lemmas -/

/-- Well-formed byte array for a given byte count: correct length, all
entries bytes. -/
def WF (B : Nat) (bs : List Nat) : Prop :=
  bs.length = B ∧ ∀ b ∈ bs, b < 256

theorem and255_eq_mod (v : Nat) : v &&& 0xFF = v % 256 := by
  have h : (0xFF : Nat) = 2 ^ 8 - 1 := by norm_num
  rw [h, Nat.and_pow_two_sub_one_eq_mod]

theorem shiftRight8_eq_div (v : Nat) : v >>> 8 = v / 256 := by
  rw [Nat.shiftRight_eq_div_pow]

theorem shiftLeft8_lor_eq (a b : Nat) (hb : b < 256) :
    (a <<< 8) ||| b = a * 256 + b := by
  rw [Nat.shiftLeft_eq]
  apply Nat.eq_of_testBit_eq
  intro j
  have hb' : b < 2 ^ 8 := by omega
  have hmul : a * 256 = 2 ^ 8 * a := by omega
  rw [Nat.testBit_lor, hmul, Nat.testBit_mul_pow_two_add a hb' j,
    Nat.testBit_mul_pow_two]
  rcases lt_or_le j 8 with hj | hj
  · simp [Nat.not_le.mpr hj, hj]
  · have hbj : b.testBit j = false :=
      Nat.testBit_lt_two_pow (lt_of_lt_of_le hb' (Nat.pow_le_pow_right (by norm_num) hj))
    simp [hj, hbj]

theorem valueToBytes_wf (B v : Nat) : WF B (valueToBytes B v) := by
  induction B generalizing v with
  | zero => exact ⟨rfl, by simp [valueToBytes]⟩
  | succ B ih =>
    obtain ⟨hlen, hmem⟩ := ih (v >>> 8)
    refine ⟨by simp [valueToBytes, hlen], ?_⟩
    intro b hb
    simp only [valueToBytes, List.mem_append, List.mem_singleton] at hb
    rcases hb with hb | hb
    · exact hmem b hb
    · rw [hb, and255_eq_mod]
      exact Nat.mod_lt _ (by norm_num)

theorem bytesToValue_append_singleton (l : List Nat) (b : Nat) :
    bytesToValue (l ++ [b]) = ((bytesToValue l) <<< 8) ||| b := by
  simp [bytesToValue, List.foldl_append]

/-- Converting `domainBytes` bytes back to a value recovers the value modulo
`256 ^ domainBytes`. -/
theorem bytesToValue_valueToBytes (B v : Nat) :
    bytesToValue (valueToBytes B v) = v % 256 ^ B := by
  induction B generalizing v with
  | zero => simp [valueToBytes, bytesToValue, Nat.mod_one]
  | succ B ih =>
    rw [valueToBytes, bytesToValue_append_singleton, ih,
      shiftLeft8_lor_eq _ _ (by rw [and255_eq_mod]; exact Nat.mod_lt _ (by norm_num)),
      and255_eq_mod, shiftRight8_eq_div]
    have h : (256 : Nat) ^ (B + 1) = 256 * 256 ^ B := by ring
    rw [h, Nat.mod_mul]
    ring

theorem bytesToValue_lt_aux (bs : List Nat) (hmem : ∀ b ∈ bs, b < 256) :
    bytesToValue bs < 256 ^ bs.length := by
  induction bs using List.reverseRecOn with
  | nil => simp [bytesToValue]
  | append_singleton l b ihl =>
    have hb : b < 256 := hmem b (by simp)
    have hl : bytesToValue l < 256 ^ l.length :=
      ihl (fun x hx => hmem x (by simp [hx]))
    rw [bytesToValue_append_singleton, shiftLeft8_lor_eq _ _ hb]
    have h : (256 : Nat) ^ (l ++ [b]).length = 256 ^ l.length * 256 := by
      simp [List.length_append]; ring
    rw [h]
    nlinarith

theorem bytesToValue_lt (B : Nat) (bs : List Nat) (h : WF B bs) :
    bytesToValue bs < 256 ^ B := by
  obtain ⟨hlen, hmem⟩ := h
  rw [← hlen]
  exact bytesToValue_lt_aux bs hmem

theorem valueToBytes_bytesToValue_aux (bs : List Nat) (hmem : ∀ b ∈ bs, b < 256) :
    valueToBytes bs.length (bytesToValue bs) = bs := by
  induction bs using List.reverseRecOn with
  | nil => simp [valueToBytes]
  | append_singleton l b ihl =>
    have hb : b < 256 := hmem b (by simp)
    have hl : ∀ x ∈ l, x < 256 := fun x hx => hmem x (by simp [hx])
    have hlen : (l ++ [b]).length = l.length + 1 := by simp
    rw [hlen, valueToBytes, bytesToValue_append_singleton, shiftLeft8_lor_eq _ _ hb]
    have h1 : (bytesToValue l * 256 + b) >>> 8 = bytesToValue l := by
      rw [shiftRight8_eq_div]
      omega
    have h2 : (bytesToValue l * 256 + b) &&& 0xFF = b := by
      rw [and255_eq_mod]
      omega
    rw [h1, h2, ihl hl]

theorem valueToBytes_bytesToValue (B : Nat) (bs : List Nat) (h : WF B bs) :
    valueToBytes B (bytesToValue bs) = bs := by
  obtain ⟨hlen, hmem⟩ := h
  rw [← hlen]
  exact valueToBytes_bytesToValue_aux bs hmem

/-! ## Bit-pair algebra for the shuffle -/

/-- A shuffle bit together with its inverse bit, as stored in
`BITS`/`INVERSE_BITS` at a common index. -/
def ValidBitPair (bit inverseBit : Nat) : Prop :=
  ∃ bn < 8, bit = BITS.getD bn 0 ∧ inverseBit = INVERSE_BITS.getD bn 0

theorem ValidBitPair.and_eq_zero {bit inv : Nat} (h : ValidBitPair bit inv) :
    inv &&& bit = 0 := by
  obtain ⟨bn, hbn, hb, hi⟩ := h
  subst hb hi
  interval_cases bn <;> decide

theorem ValidBitPair.or_eq_255 {bit inv : Nat} (h : ValidBitPair bit inv) :
    inv ||| bit = 255 := by
  obtain ⟨bn, hbn, hb, hi⟩ := h
  subst hb hi
  interval_cases bn <;> decide

/-- The tested bit of a shuffled byte comes from the determinant half. -/
theorem recomb_and_bit {bit inv : Nat} (h : ValidBitPair bit inv) (x y : Nat) :
    ((x &&& inv) ||| (y &&& bit)) &&& bit = y &&& bit := by
  have hz := h.and_eq_zero
  apply Nat.eq_of_testBit_eq
  intro i
  have hzi : (inv.testBit i && bit.testBit i) = false := by
    rw [← Nat.testBit_land, hz, Nat.zero_testBit]
  simp only [Nat.testBit_land, Nat.testBit_lor]
  cases hx : x.testBit i <;> cases hy : y.testBit i <;>
    cases hbi : bit.testBit i <;> cases hvi : inv.testBit i <;> simp_all

/-- The non-tested bits of a shuffled byte come from the moved byte. -/
theorem recomb_and_inv {bit inv : Nat} (h : ValidBitPair bit inv) (x y : Nat) :
    ((x &&& inv) ||| (y &&& bit)) &&& inv = x &&& inv := by
  have hz := h.and_eq_zero
  apply Nat.eq_of_testBit_eq
  intro i
  have hzi : (inv.testBit i && bit.testBit i) = false := by
    rw [← Nat.testBit_land, hz, Nat.zero_testBit]
  simp only [Nat.testBit_land, Nat.testBit_lor]
  cases hx : x.testBit i <;> cases hy : y.testBit i <;>
    cases hbi : bit.testBit i <;> cases hvi : inv.testBit i <;> simp_all

/-- Splitting a byte along the bit pair and recombining is the identity. -/
theorem recomb_self {bit inv : Nat} (h : ValidBitPair bit inv) (x : Nat)
    (hx : x < 256) : (x &&& inv) ||| (x &&& bit) = x := by
  have h255 := h.or_eq_255
  apply Nat.eq_of_testBit_eq
  intro i
  have h255i : (inv.testBit i || bit.testBit i) = Nat.testBit 255 i := by
    rw [← Nat.testBit_lor, h255]
  simp only [Nat.testBit_land, Nat.testBit_lor]
  rcases lt_or_le i 8 with hi | hi
  · have : Nat.testBit 255 i = true := by interval_cases i <;> decide
    rw [this] at h255i
    cases hx' : x.testBit i <;>
      cases hbi : bit.testBit i <;> cases hvi : inv.testBit i <;> simp_all
  · have hxi : x.testBit i = false :=
      Nat.testBit_lt_two_pow
        (lt_of_lt_of_le (by omega : x < 2 ^ 8) (Nat.pow_le_pow_right (by norm_num) hi))
    simp [hxi]

theorem recomb_lt {bit inv : Nat} (h : ValidBitPair bit inv) (x y : Nat) :
    (x &&& inv) ||| (y &&& bit) < 256 := by
  obtain ⟨bn, hbn, hb, hi⟩ := h
  have h1 : x &&& inv < 2 ^ 8 := by
    apply Nat.and_lt_two_pow
    subst hi; interval_cases bn <;> decide
  have h2 : y &&& bit < 2 ^ 8 := by
    apply Nat.and_lt_two_pow
    subst hb; interval_cases bn <;> decide
  have := Nat.or_lt_two_pow h1 h2
  omega

/-! ## Xor-chain lemmas -/

theorem xorChain_length (forward : Bool) (c : Nat) (bs : List Nat) :
    (xorChain forward c bs).length = bs.length := by
  induction bs generalizing c with
  | nil => rfl
  | cons b rest ih => simp [xorChain, ih]

theorem xorChain_mem_lt (forward : Bool) (c : Nat) (bs : List Nat)
    (hc : c < 256) (hmem : ∀ b ∈ bs, b < 256) :
    ∀ b ∈ xorChain forward c bs, b < 256 := by
  induction bs generalizing c with
  | nil => simp [xorChain]
  | cons b rest ih =>
    intro x hx
    have hb : b < 256 := hmem b (by simp)
    have hbc : b ^^^ c < 256 := by
      have : b ^^^ c < 2 ^ 8 := Nat.xor_lt_two_pow (by omega) (by omega)
      omega
    simp only [xorChain, List.mem_cons] at hx
    rcases hx with hx | hx
    · omega
    · rcases forward with _ | _
      · exact ih b (by simpa using hb) (fun y hy => hmem y (by simp [hy])) x (by simpa using hx)
      · exact ih (b ^^^ c) hbc (fun y hy => hmem y (by simp [hy])) x (by simpa using hx)

/-- The reverse xor chain undoes the forward xor chain. -/
theorem xorChain_rev_fwd (c : Nat) (bs : List Nat) :
    xorChain false c (xorChain true c bs) = bs := by
  induction bs generalizing c with
  | nil => rfl
  | cons b rest ih =>
    simp [xorChain, Nat.xor_cancel_right, ih]

/-- The forward xor chain undoes the reverse xor chain. -/
theorem xorChain_fwd_rev (c : Nat) (bs : List Nat) :
    xorChain true c (xorChain false c bs) = bs := by
  induction bs generalizing c with
  | nil => rfl
  | cons b rest ih =>
    simp [xorChain, Nat.xor_cancel_right, ih]

/-! ## Scatter-write lemmas

The shuffle writes its output through `shuffleBytes[index] = ...` /
`shuffleBytes[shuffleIndex] = ...`; these lemmas characterise a left fold of
`List.set` over a list of (position, value) writes. -/

theorem foldl_set_length (ws : List (Nat × Nat)) (init : List Nat) :
    (ws.foldl (fun acc w => acc.set w.1 w.2) init).length = init.length := by
  induction ws generalizing init with
  | nil => rfl
  | cons w rest ih => simp [List.foldl_cons, ih, List.length_set]

theorem foldl_set_getElem?_not_mem (ws : List (Nat × Nat)) (init : List Nat)
    (j : Nat) (hj : j ∉ ws.map Prod.fst) :
    (ws.foldl (fun acc w => acc.set w.1 w.2) init)[j]? = init[j]? := by
  induction ws generalizing init with
  | nil => rfl
  | cons w rest ih =>
    simp only [List.map_cons, List.mem_cons] at hj
    push_neg at hj
    rw [List.foldl_cons, ih _ hj.2, List.getElem?_set]
    simp [Ne.symm hj.1]

theorem foldl_set_getElem?_mem (ws : List (Nat × Nat)) (init : List Nat)
    (hnodup : (ws.map Prod.fst).Nodup) {j x : Nat} (hmem : (j, x) ∈ ws)
    (hj : j < init.length) :
    (ws.foldl (fun acc w => acc.set w.1 w.2) init)[j]? = some x := by
  induction ws generalizing init with
  | nil => cases hmem
  | cons w rest ih =>
    simp only [List.map_cons, List.nodup_cons] at hnodup
    rcases List.mem_cons.mp hmem with hw | hw
    · subst hw
      rw [List.foldl_cons, foldl_set_getElem?_not_mem _ _ _ hnodup.1,
        List.getElem?_set]
      simp [hj]
    · have hjr : j ∈ rest.map Prod.fst :=
        List.mem_map.mpr ⟨(j, x), hw, rfl⟩
      rw [List.foldl_cons]
      exact ih _ hnodup.2 hw (by simp [List.length_set, hj])

/-! ## The shuffle permutation -/

/-- The permutation of positions used by one shuffle round: indexes whose
determinant (tested bit) is set, in order, followed by the rest. -/
def shufflePerm (bs : List Nat) (bit : Nat) : List Nat :=
  (List.range bs.length).filter
      (fun i => (bs.map (fun byte => byte &&& bit)).getD i 0 != 0)
    ++ (List.range bs.length).filter
      (fun i => !((bs.map (fun byte => byte &&& bit)).getD i 0 != 0))

theorem shufflePerm_perm (bs : List Nat) (bit : Nat) :
    (shufflePerm bs bit).Perm (List.range bs.length) :=
  List.filter_append_perm _ _

theorem shufflePerm_length (bs : List Nat) (bit : Nat) :
    (shufflePerm bs bit).length = bs.length := by
  rw [(shufflePerm_perm bs bit).length_eq, List.length_range]

theorem shufflePerm_nodup (bs : List Nat) (bit : Nat) :
    (shufflePerm bs bit).Nodup :=
  (List.nodup_range bs.length).perm (shufflePerm_perm bs bit).symm

theorem shufflePerm_mem (bs : List Nat) (bit : Nat) (j : Nat) :
    j ∈ shufflePerm bs bit ↔ j < bs.length := by
  rw [(shufflePerm_perm bs bit).mem_iff, List.mem_range]

theorem shufflePerm_getD_lt (bs : List Nat) (bit : Nat) (i : Nat)
    (hi : i < bs.length) : (shufflePerm bs bit).getD i 0 < bs.length := by
  have hi' : i < (shufflePerm bs bit).length := by rw [shufflePerm_length]; exact hi
  rw [List.getD_eq_getElem _ _ hi']
  exact (shufflePerm_mem bs bit _).mp (List.getElem_mem hi')

/-- Every position below the length is hit by the shuffle permutation. -/
theorem shufflePerm_surj (bs : List Nat) (bit : Nat) (j : Nat)
    (hj : j < bs.length) :
    ∃ i, i < bs.length ∧ (shufflePerm bs bit).getD i 0 = j := by
  have hmem : j ∈ shufflePerm bs bit := (shufflePerm_mem bs bit j).mpr hj
  obtain ⟨i, hi, hget⟩ := List.getElem_of_mem hmem
  refine ⟨i, by rwa [shufflePerm_length] at hi, ?_⟩
  rw [List.getD_eq_getElem _ _ hi, hget]

/-- The shuffle permutation only depends on the tested bit of each byte. -/
theorem shufflePerm_congr (as bs : List Nat) (bit : Nat)
    (hlen : as.length = bs.length)
    (hdet : ∀ j < bs.length, as.getD j 0 &&& bit = bs.getD j 0 &&& bit) :
    shufflePerm as bit = shufflePerm bs bit := by
  have hmap : ∀ j < bs.length,
      (as.map (fun byte => byte &&& bit)).getD j 0
        = (bs.map (fun byte => byte &&& bit)).getD j 0 := by
    intro j hj
    have hja : j < as.length := by omega
    rw [List.getD_eq_getElem _ _ (by simpa using hja),
      List.getD_eq_getElem _ _ (by simpa using hj)]
    simp only [List.getElem_map]
    rw [← List.getD_eq_getElem as 0 hja, ← List.getD_eq_getElem bs 0 hj]
    exact hdet j hj
  unfold shufflePerm
  rw [hlen]
  congr 1
  · exact List.filter_congr (fun i hi => by
      rw [hmap i (List.mem_range.mp hi)])
  · exact List.filter_congr (fun i hi => by
      rw [hmap i (List.mem_range.mp hi)])

/-! ## Shuffle characterisation -/

theorem getD_map_lt (l : List Nat) (f : Nat → Nat) (j : Nat)
    (h : j < l.length) : (l.map f).getD j 0 = f (l.getD j 0) := by
  simp [List.getD_eq_getElem?_getD, List.getElem?_map, List.getElem?_eq_getElem h]

/-- Pointwise equality via `getD` implies list equality. -/
theorem ext_getD (l₁ l₂ : List Nat) (hlen : l₁.length = l₂.length)
    (h : ∀ j < l₂.length, l₁.getD j 0 = l₂.getD j 0) : l₁ = l₂ := by
  apply List.ext_getElem hlen
  intro j h₁ h₂
  have := h j h₂
  rwa [List.getD_eq_getElem _ _ h₁, List.getD_eq_getElem _ _ h₂] at this

/-- The forward shuffle as a scatter of (position, value) writes. -/
theorem shuffle_fwd_eq (bs : List Nat) (bit inv : Nat) :
    shuffle bs bit inv true
      = ((shufflePerm bs bit).enum.map
          (fun ix => (ix.1,
            (bs.getD ix.2 0 &&& inv)
              ||| ((bs.map (fun byte => byte &&& bit)).getD ix.1 0)))).foldl
        (fun acc w => acc.set w.1 w.2) (List.replicate bs.length 0) := by
  unfold shuffle shufflePerm
  rw [List.foldl_map]
  rfl

/-- The reverse shuffle as a scatter of (position, value) writes. -/
theorem shuffle_rev_eq (bs : List Nat) (bit inv : Nat) :
    shuffle bs bit inv false
      = ((shufflePerm bs bit).enum.map
          (fun ix => (ix.2,
            (bs.getD ix.1 0 &&& inv)
              ||| ((bs.map (fun byte => byte &&& bit)).getD ix.2 0)))).foldl
        (fun acc w => acc.set w.1 w.2) (List.replicate bs.length 0) := by
  unfold shuffle shufflePerm
  rw [List.foldl_map]
  rfl

theorem shuffle_length (bs : List Nat) (bit inv : Nat) (forward : Bool) :
    (shuffle bs bit inv forward).length = bs.length := by
  rcases forward with _ | _
  · rw [shuffle_rev_eq, foldl_set_length, List.length_replicate]
  · rw [shuffle_fwd_eq, foldl_set_length, List.length_replicate]

/-- The forward shuffle gathers from the permuted position, preserving the
tested bit of the destination. -/
theorem shuffle_fwd_getD (bs : List Nat) (bit inv : Nat) (j : Nat)
    (hj : j < bs.length) :
    (shuffle bs bit inv true).getD j 0
      = (bs.getD ((shufflePerm bs bit).getD j 0) 0 &&& inv)
          ||| (bs.getD j 0 &&& bit) := by
  have hperm : (shufflePerm bs bit).length = bs.length := shufflePerm_length bs bit
  rw [shuffle_fwd_eq]
  have hjp : j < (shufflePerm bs bit).enum.length := by
    rw [List.enum_length, hperm]; exact hj
  have hmem : (j, (bs.getD ((shufflePerm bs bit).getD j 0) 0 &&& inv)
      ||| ((bs.map (fun byte => byte &&& bit)).getD j 0)) ∈
      (shufflePerm bs bit).enum.map
        (fun ix => (ix.1,
          (bs.getD ix.2 0 &&& inv)
            ||| ((bs.map (fun byte => byte &&& bit)).getD ix.1 0))) := by
    refine List.mem_map.mpr ⟨(j, (shufflePerm bs bit).getD j 0), ?_, rfl⟩
    have : (shufflePerm bs bit).enum[j] = (j, (shufflePerm bs bit)[j]) :=
      List.getElem_enum _ _ hjp
    rw [List.getD_eq_getElem _ _ (by omega : j < (shufflePerm bs bit).length)]
    rw [← this]
    exact List.getElem_mem hjp
  have hfst : ((shufflePerm bs bit).enum.map
      (fun ix => (ix.1,
        (bs.getD ix.2 0 &&& inv)
          ||| ((bs.map (fun byte => byte &&& bit)).getD ix.1 0)))).map Prod.fst
      = (List.range bs.length) := by
    rw [List.map_map]
    have : (Prod.fst ∘ fun (ix : Nat × Nat) => (ix.1,
        (bs.getD ix.2 0 &&& inv)
          ||| ((bs.map (fun byte => byte &&& bit)).getD ix.1 0)))
        = Prod.fst := by funext ix; rfl
    rw [this, List.enum_map_fst, hperm, List.range_eq_range']
  have hnodup : (((shufflePerm bs bit).enum.map
      (fun ix => (ix.1,
        (bs.getD ix.2 0 &&& inv)
          ||| ((bs.map (fun byte => byte &&& bit)).getD ix.1 0)))).map Prod.fst).Nodup := by
    rw [hfst]; exact List.nodup_range _
  have := foldl_set_getElem?_mem _ (List.replicate bs.length 0) hnodup hmem
    (by simp [hj])
  rw [List.getD_eq_getElem?_getD, this]
  rw [getD_map_lt bs _ j hj]
  rfl

/-- The reverse shuffle scatters to the permuted position, preserving the
tested bit of the destination. -/
theorem shuffle_rev_getD (bs : List Nat) (bit inv : Nat) (i : Nat)
    (hi : i < bs.length) :
    (shuffle bs bit inv false).getD ((shufflePerm bs bit).getD i 0) 0
      = (bs.getD i 0 &&& inv)
          ||| (bs.getD ((shufflePerm bs bit).getD i 0) 0 &&& bit) := by
  have hperm : (shufflePerm bs bit).length = bs.length := shufflePerm_length bs bit
  rw [shuffle_rev_eq]
  have hip : i < (shufflePerm bs bit).enum.length := by
    rw [List.enum_length, hperm]; exact hi
  have hilen : i < (shufflePerm bs bit).length := by omega
  have hgd : (shufflePerm bs bit).getD i 0 = (shufflePerm bs bit)[i] :=
    List.getD_eq_getElem _ _ hilen
  have hmem : ((shufflePerm bs bit).getD i 0,
      (bs.getD i 0 &&& inv)
        ||| ((bs.map (fun byte => byte &&& bit)).getD ((shufflePerm bs bit).getD i 0) 0)) ∈
      (shufflePerm bs bit).enum.map
        (fun ix => (ix.2,
          (bs.getD ix.1 0 &&& inv)
            ||| ((bs.map (fun byte => byte &&& bit)).getD ix.2 0))) := by
    refine List.mem_map.mpr ⟨(i, (shufflePerm bs bit).getD i 0), ?_, rfl⟩
    have : (shufflePerm bs bit).enum[i] = (i, (shufflePerm bs bit)[i]) :=
      List.getElem_enum _ _ hip
    rw [hgd, ← this]
    exact List.getElem_mem hip
  have hfst : ((shufflePerm bs bit).enum.map
      (fun ix => (ix.2,
        (bs.getD ix.1 0 &&& inv)
          ||| ((bs.map (fun byte => byte &&& bit)).getD ix.2 0)))).map Prod.fst
      = shufflePerm bs bit := by
    rw [List.map_map]
    have : (Prod.fst ∘ fun (ix : Nat × Nat) => (ix.2,
        (bs.getD ix.1 0 &&& inv)
          ||| ((bs.map (fun byte => byte &&& bit)).getD ix.2 0)))
        = Prod.snd := by funext ix; rfl
    rw [this, List.enum_map_snd]
  have hnodup : (((shufflePerm bs bit).enum.map
      (fun ix => (ix.2,
        (bs.getD ix.1 0 &&& inv)
          ||| ((bs.map (fun byte => byte &&& bit)).getD ix.2 0)))).map Prod.fst).Nodup := by
    rw [hfst]; exact shufflePerm_nodup bs bit
  have hlt : (shufflePerm bs bit).getD i 0 < bs.length := shufflePerm_getD_lt bs bit i hi
  have := foldl_set_getElem?_mem _ (List.replicate bs.length 0) hnodup hmem
    (by simpa using hlt)
  rw [List.getD_eq_getElem?_getD, this]
  rw [getD_map_lt bs _ _ hlt]
  rfl

/-! ## Shuffle bounds and inversion -/

theorem getD_mem_of_lt (l : List Nat) (j : Nat) (hj : j < l.length) :
    l.getD j 0 ∈ l := by
  rw [List.getD_eq_getElem _ _ hj]
  exact List.getElem_mem hj

theorem shuffle_mem_lt {bit inv : Nat} (h : ValidBitPair bit inv)
    (bs : List Nat) (forward : Bool) :
    ∀ x ∈ shuffle bs bit inv forward, x < 256 := by
  intro x hx
  obtain ⟨j, hj, hget⟩ := List.getElem_of_mem hx
  have hj' : j < bs.length := by
    have := hj; rwa [shuffle_length] at this
  have hgd : (shuffle bs bit inv forward).getD j 0 = x := by
    rw [List.getD_eq_getElem _ _ hj, hget]
  rcases forward with _ | _
  · obtain ⟨i, hi, hpi⟩ := shufflePerm_surj bs bit j hj'
    rw [← hpi] at hgd
    rw [shuffle_rev_getD bs bit inv i hi] at hgd
    rw [← hgd]
    exact recomb_lt h _ _
  · rw [shuffle_fwd_getD bs bit inv j hj'] at hgd
    rw [← hgd]
    exact recomb_lt h _ _

/-- The forward shuffle preserves the tested bit at every position. -/
theorem shuffle_fwd_and_bit {bit inv : Nat} (h : ValidBitPair bit inv)
    (bs : List Nat) (j : Nat) (hj : j < bs.length) :
    (shuffle bs bit inv true).getD j 0 &&& bit = bs.getD j 0 &&& bit := by
  rw [shuffle_fwd_getD bs bit inv j hj, recomb_and_bit h]

/-- The reverse shuffle preserves the tested bit at every position. -/
theorem shuffle_rev_and_bit {bit inv : Nat} (h : ValidBitPair bit inv)
    (bs : List Nat) (j : Nat) (hj : j < bs.length) :
    (shuffle bs bit inv false).getD j 0 &&& bit = bs.getD j 0 &&& bit := by
  obtain ⟨i, hi, hpi⟩ := shufflePerm_surj bs bit j hj
  rw [← hpi, shuffle_rev_getD bs bit inv i hi, recomb_and_bit h]

/-- Reverse shuffling undoes forward shuffling. -/
theorem shuffle_rev_fwd {bit inv : Nat} (h : ValidBitPair bit inv)
    (bs : List Nat) (hmem : ∀ b ∈ bs, b < 256) :
    shuffle (shuffle bs bit inv true) bit inv false = bs := by
  set c := shuffle bs bit inv true with hc
  have hclen : c.length = bs.length := shuffle_length bs bit inv true
  have hpermeq : shufflePerm c bit = shufflePerm bs bit :=
    shufflePerm_congr c bs bit hclen (fun j hj => shuffle_fwd_and_bit h bs j hj)
  apply ext_getD _ _ (by rw [shuffle_length, hclen])
  intro j hj
  obtain ⟨i, hi, hpi⟩ := shufflePerm_surj bs bit j hj
  have hic : i < c.length := by omega
  rw [← hpi]
  have hrev := shuffle_rev_getD c bit inv i hic
  rw [hpermeq] at hrev
  rw [hrev]
  have hcfwd_i := shuffle_fwd_getD bs bit inv i hi
  have hlt : (shufflePerm bs bit).getD i 0 < bs.length := shufflePerm_getD_lt bs bit i hi
  have h1 : c.getD i 0 &&& inv = bs.getD ((shufflePerm bs bit).getD i 0) 0 &&& inv := by
    rw [hcfwd_i, recomb_and_inv h]
  have h2 : c.getD ((shufflePerm bs bit).getD i 0) 0 &&& bit
      = bs.getD ((shufflePerm bs bit).getD i 0) 0 &&& bit :=
    shuffle_fwd_and_bit h bs _ hlt
  rw [h1, h2, recomb_self h _ (hmem _ (getD_mem_of_lt bs _ hlt))]

/-- Forward shuffling undoes reverse shuffling. -/
theorem shuffle_fwd_rev {bit inv : Nat} (h : ValidBitPair bit inv)
    (bs : List Nat) (hmem : ∀ b ∈ bs, b < 256) :
    shuffle (shuffle bs bit inv false) bit inv true = bs := by
  set c := shuffle bs bit inv false with hc
  have hclen : c.length = bs.length := shuffle_length bs bit inv false
  have hpermeq : shufflePerm c bit = shufflePerm bs bit :=
    shufflePerm_congr c bs bit hclen (fun j hj => shuffle_rev_and_bit h bs j hj)
  apply ext_getD _ _ (by rw [shuffle_length, hclen])
  intro j hj
  have hjc : j < c.length := by omega
  rw [shuffle_fwd_getD c bit inv j hjc, hpermeq]
  have hlt : (shufflePerm bs bit).getD j 0 < bs.length := shufflePerm_getD_lt bs bit j hj
  have h1 : c.getD ((shufflePerm bs bit).getD j 0) 0
      = (bs.getD j 0 &&& inv) ||| (bs.getD ((shufflePerm bs bit).getD j 0) 0 &&& bit) :=
    shuffle_rev_getD bs bit inv j hj
  have h2 : c.getD j 0 &&& bit = bs.getD j 0 &&& bit :=
    shuffle_rev_and_bit h bs j hj
  rw [h1, recomb_and_inv h, h2, recomb_self h _ (hmem _ (getD_mem_of_lt bs _ hj))]

/-! ## Round validity and pass inversion -/

/-- The per-round data is valid: the bit pair comes from the tables and the
xor byte is a byte. -/
def ValidRound (p : EncParams) (r : Nat) : Prop :=
  ValidBitPair (p.bits.getD r 0) (p.inverseBits.getD r 0) ∧ p.xorBytes.getD r 0 < 256

/-- All rounds of the parameters are valid. -/
def ValidParams (p : EncParams) : Prop :=
  ∀ r < p.rounds, ValidRound p r

theorem roundFwd_wf (p : EncParams) (r : Nat) (hr : ValidRound p r)
    {B : Nat} {bs : List Nat} (hwf : WF B bs) : WF B (roundFwd p bs r) := by
  obtain ⟨hpair, hxor⟩ := hr
  obtain ⟨hlen, hmem⟩ := hwf
  constructor
  · rw [roundFwd, xorChain_length, shuffle_length, hlen]
  · exact xorChain_mem_lt _ _ _ hxor (shuffle_mem_lt hpair bs true)

theorem roundRev_wf (p : EncParams) (r : Nat) (hr : ValidRound p r)
    {B : Nat} {bs : List Nat} (hwf : WF B bs) : WF B (roundRev p bs r) := by
  obtain ⟨hpair, hxor⟩ := hr
  obtain ⟨hlen, hmem⟩ := hwf
  constructor
  · rw [roundRev, shuffle_length, xorChain_length, hlen]
  · exact shuffle_mem_lt hpair _ false

theorem roundRev_roundFwd (p : EncParams) (r : Nat) (hr : ValidRound p r)
    (bs : List Nat) (hmem : ∀ b ∈ bs, b < 256) :
    roundRev p (roundFwd p bs r) r = bs := by
  rw [roundFwd, roundRev, xorChain_rev_fwd]
  exact shuffle_rev_fwd hr.1 bs hmem

theorem roundFwd_roundRev (p : EncParams) (r : Nat) (hr : ValidRound p r)
    (bs : List Nat) (hmem : ∀ b ∈ bs, b < 256) :
    roundFwd p (roundRev p bs r) r = bs := by
  rw [roundFwd, roundRev]
  rw [shuffle_fwd_rev hr.1 _ (xorChain_mem_lt _ _ _ hr.2 hmem)]
  exact xorChain_fwd_rev _ bs

theorem foldl_roundFwd_wf (p : EncParams) (l : List Nat)
    (hl : ∀ r ∈ l, ValidRound p r) {B : Nat} {bs : List Nat} (hwf : WF B bs) :
    WF B (l.foldl (roundFwd p) bs) := by
  induction l generalizing bs with
  | nil => exact hwf
  | cons r l' ih =>
    rw [List.foldl_cons]
    exact ih (fun x hx => hl x (by simp [hx]))
      (roundFwd_wf p r (hl r (by simp)) hwf)

theorem foldl_roundRev_wf (p : EncParams) (l : List Nat)
    (hl : ∀ r ∈ l, ValidRound p r) {B : Nat} {bs : List Nat} (hwf : WF B bs) :
    WF B (l.foldl (roundRev p) bs) := by
  induction l generalizing bs with
  | nil => exact hwf
  | cons r l' ih =>
    rw [List.foldl_cons]
    exact ih (fun x hx => hl x (by simp [hx]))
      (roundRev_wf p r (hl r (by simp)) hwf)

theorem foldl_rev_fwd (p : EncParams) (l : List Nat)
    (hl : ∀ r ∈ l, ValidRound p r) {B : Nat} (bs : List Nat) (hwf : WF B bs) :
    l.reverse.foldl (roundRev p) (l.foldl (roundFwd p) bs) = bs := by
  induction l generalizing bs with
  | nil => rfl
  | cons r l' ih =>
    rw [List.foldl_cons, List.reverse_cons, List.foldl_append]
    have hwf' : WF B (roundFwd p bs r) := roundFwd_wf p r (hl r (by simp)) hwf
    rw [ih (fun x hx => hl x (by simp [hx])) _ hwf']
    simp only [List.foldl_cons, List.foldl_nil]
    exact roundRev_roundFwd p r (hl r (by simp)) bs hwf.2

theorem foldl_fwd_rev (p : EncParams) (l : List Nat)
    (hl : ∀ r ∈ l, ValidRound p r) {B : Nat} (bs : List Nat) (hwf : WF B bs) :
    l.foldl (roundFwd p) (l.reverse.foldl (roundRev p) bs) = bs := by
  induction l generalizing bs with
  | nil => rfl
  | cons r l' ih =>
    rw [List.reverse_cons, List.foldl_append, List.foldl_cons]
    simp only [List.foldl_cons, List.foldl_nil]
    have hwfX : WF B (l'.reverse.foldl (roundRev p) bs) :=
      foldl_roundRev_wf p l'.reverse
        (fun x hx => hl x (by simp at hx; simp [hx])) hwf
    rw [roundFwd_roundRev p r (hl r (by simp)) _ hwfX.2]
    exact ih (fun x hx => hl x (by simp [hx])) _ hwf

theorem revPass_fwdPass (p : EncParams) (hv : ValidParams p)
    {B : Nat} (bs : List Nat) (hwf : WF B bs) :
    revPass p (fwdPass p bs) = bs := by
  rw [fwdPass, revPass]
  exact foldl_rev_fwd p _ (fun r hr => hv r (List.mem_range.mp hr)) bs hwf

theorem fwdPass_revPass (p : EncParams) (hv : ValidParams p)
    {B : Nat} (bs : List Nat) (hwf : WF B bs) :
    fwdPass p (revPass p bs) = bs := by
  rw [fwdPass, revPass]
  exact foldl_fwd_rev p _ (fun r hr => hv r (List.mem_range.mp hr)) bs hwf

theorem fwdPass_wf (p : EncParams) (hv : ValidParams p)
    {B : Nat} {bs : List Nat} (hwf : WF B bs) : WF B (fwdPass p bs) :=
  foldl_roundFwd_wf p _ (fun r hr => hv r (List.mem_range.mp hr)) hwf

theorem revPass_wf (p : EncParams) (hv : ValidParams p)
    {B : Nat} {bs : List Nat} (hwf : WF B bs) : WF B (revPass p bs) :=
  foldl_roundRev_wf p _ (fun r hr => hv r (by
    rw [List.mem_reverse] at hr; exact List.mem_range.mp hr)) hwf

/-! ## The round functions on values -/

/-- One full forward application (all rounds) on a value, as iterated by the
cycle-walking loop of `doForward`. -/
def encF (p : EncParams) (v : Nat) : Nat :=
  bytesToValue (fwdPass p (valueToBytes p.domainBytes v))

/-- One full reverse application (all rounds) on a value, as iterated by the
cycle-walking loop of `doReverse`. -/
def encG (p : EncParams) (v : Nat) : Nat :=
  bytesToValue (revPass p (valueToBytes p.domainBytes v))

theorem encF_lt (p : EncParams) (hv : ValidParams p) (v : Nat) :
    encF p v < 256 ^ p.domainBytes :=
  bytesToValue_lt _ _ (fwdPass_wf p hv (valueToBytes_wf _ v))

theorem encG_lt (p : EncParams) (hv : ValidParams p) (v : Nat) :
    encG p v < 256 ^ p.domainBytes :=
  bytesToValue_lt _ _ (revPass_wf p hv (valueToBytes_wf _ v))

theorem encF_bytes (p : EncParams) {bs : List Nat}
    (hwf : WF p.domainBytes bs) :
    encF p (bytesToValue bs) = bytesToValue (fwdPass p bs) := by
  rw [encF, valueToBytes_bytesToValue _ _ hwf]

theorem encG_bytes (p : EncParams) {bs : List Nat}
    (hwf : WF p.domainBytes bs) :
    encG p (bytesToValue bs) = bytesToValue (revPass p bs) := by
  rw [encG, valueToBytes_bytesToValue _ _ hwf]

theorem encG_encF (p : EncParams) (hv : ValidParams p) (v : Nat)
    (hlt : v < 256 ^ p.domainBytes) : encG p (encF p v) = v := by
  have hwf : WF p.domainBytes (valueToBytes p.domainBytes v) := valueToBytes_wf _ v
  have hwf' : WF p.domainBytes (fwdPass p (valueToBytes p.domainBytes v)) :=
    fwdPass_wf p hv hwf
  rw [encF, encG, valueToBytes_bytesToValue _ _ hwf',
    revPass_fwdPass p hv _ hwf, bytesToValue_valueToBytes, Nat.mod_eq_of_lt hlt]

theorem encF_encG (p : EncParams) (hv : ValidParams p) (v : Nat)
    (hlt : v < 256 ^ p.domainBytes) : encF p (encG p v) = v := by
  have hwf : WF p.domainBytes (valueToBytes p.domainBytes v) := valueToBytes_wf _ v
  have hwf' : WF p.domainBytes (revPass p (valueToBytes p.domainBytes v)) :=
    revPass_wf p hv hwf
  rw [encG, encF, valueToBytes_bytesToValue _ _ hwf',
    fwdPass_revPass p hv _ hwf, bytesToValue_valueToBytes, Nat.mod_eq_of_lt hlt]

/-! ## Orbit argument: cycle walking terminates -/

theorem iterate_lt_of_lt {f : Nat → Nat} {M : Nat}
    (hf : ∀ v, f v < M) (v : Nat) (k : Nat) (hk : 0 < k) : f^[k] v < M := by
  obtain ⟨k', rfl⟩ := Nat.exists_eq_succ_of_ne_zero (Nat.pos_iff_ne_zero.mp hk)
  rw [Function.iterate_succ_apply']
  exact hf _

theorem iterate_inj_cancel {f g : Nat → Nat} {M : Nat}
    (hf : ∀ v, f v < M) (hgf : ∀ v < M, g (f v) = v) :
    ∀ k, ∀ x < M, ∀ y < M, f^[k] x = f^[k] y → x = y := by
  intro k
  induction k with
  | zero => intro x _ y _ h; simpa using h
  | succ k ih =>
    intro x hx y hy h
    rw [Function.iterate_succ_apply, Function.iterate_succ_apply] at h
    have := ih (f x) (hf x) (f y) (hf y) h
    calc x = g (f x) := (hgf x hx).symm
    _ = g (f y) := by rw [this]
    _ = y := hgf y hy

/-- A function on `[0, M)` with a left inverse revisits every starting point:
the orbit of `v` returns to `v` within `M` steps. -/
theorem orbit_returns {f g : Nat → Nat} {M : Nat}
    (hf : ∀ v, f v < M) (hgf : ∀ v < M, g (f v) = v)
    (v : Nat) (hv : v < M) : ∃ k, 0 < k ∧ k ≤ M ∧ f^[k] v = v := by
  have hmaps : ∀ i ∈ Finset.range (M + 1), f^[i] v ∈ Finset.range M := by
    intro i _
    rw [Finset.mem_range]
    rcases Nat.eq_zero_or_pos i with hi | hi
    · simpa [hi] using hv
    · exact iterate_lt_of_lt hf v i hi
  have hcard : (Finset.range M).card < (Finset.range (M + 1)).card := by
    simp
  obtain ⟨i, hi, j, hj, hne, heq⟩ :=
    Finset.exists_ne_map_eq_of_card_lt_of_maps_to hcard hmaps
  rw [Finset.mem_range] at hi hj
  -- order them
  rcases Nat.lt_or_ge i j with hij | hij
  · refine ⟨j - i, by omega, by omega, ?_⟩
    have : f^[i] (f^[j - i] v) = f^[i] v := by
      rw [← Function.iterate_add_apply]
      have : i + (j - i) = j := by omega
      rw [this, heq]
    exact iterate_inj_cancel hf hgf i _
      (iterate_lt_of_lt hf v (j - i) (by omega)) _ hv this
  · have hij' : j < i := by omega
    refine ⟨i - j, by omega, by omega, ?_⟩
    have : f^[j] (f^[i - j] v) = f^[j] v := by
      rw [← Function.iterate_add_apply]
      have : j + (i - j) = i := by omega
      rw [this, heq]
    exact iterate_inj_cancel hf hgf j _
      (iterate_lt_of_lt hf v (i - j) (by omega)) _ hv this

/-! ## Walk characterisation -/

theorem doForwardAux_spec (p : EncParams) (hv : ValidParams p) :
    ∀ (fuel : Nat) (bs : List Nat), WF p.domainBytes bs →
    ∀ (k : Nat), 0 < k → k ≤ fuel + 1 →
    (encF p)^[k] (bytesToValue bs) < p.domain →
    (∀ j, 0 < j → j < k → p.domain ≤ (encF p)^[j] (bytesToValue bs)) →
    doForwardAux p fuel bs = (encF p)^[k] (bytesToValue bs) := by
  intro fuel
  induction fuel with
  | zero =>
    intro bs hwf k hk0 hk1 hin _
    have hk : k = 1 := by omega
    subst hk
    have h1 : (encF p)^[1] (bytesToValue bs) = bytesToValue (fwdPass p bs) := by
      rw [Function.iterate_one, encF_bytes p hwf]
    rw [h1] at hin ⊢
    simp only [doForwardAux, hin, if_pos]
  | succ fuel ih =>
    intro bs hwf k hk0 hk1 hin hmin
    have h1 : encF p (bytesToValue bs) = bytesToValue (fwdPass p bs) :=
      encF_bytes p hwf
    rcases Nat.eq_or_lt_of_le hk0 with hk | hk
    · -- k = 1 : the first iteration is already in the domain
      have hk' : k = 1 := hk.symm
      subst hk'
      have h1' : (encF p)^[1] (bytesToValue bs) = bytesToValue (fwdPass p bs) := by
        rw [Function.iterate_one, h1]
      rw [h1'] at hin ⊢
      simp only [doForwardAux, hin, if_pos]
    · -- k ≥ 2 : the first iteration is out of the domain, recurse
      have hout : ¬ bytesToValue (fwdPass p bs) < p.domain := by
        have := hmin 1 (by omega) (by omega)
        rw [Function.iterate_one, h1] at this
        omega
      have hwf2 : WF p.domainBytes (fwdPass p bs) := fwdPass_wf p hv hwf
      have hiter : ∀ j, (encF p)^[j] (bytesToValue (fwdPass p bs))
          = (encF p)^[j + 1] (bytesToValue bs) := by
        intro j
        rw [← h1, ← Function.iterate_succ_apply]
      have hrec := ih (fwdPass p bs) hwf2 (k - 1) (by omega) (by omega)
        (by rw [hiter (k - 1), Nat.sub_add_cancel (by omega : 1 ≤ k)]; exact hin)
        (by
          intro j hj0 hjk
          rw [hiter j]
          exact hmin (j + 1) (by omega) (by omega))
      have hstep : doForwardAux p (fuel + 1) bs = doForwardAux p fuel (fwdPass p bs) := by
        simp only [doForwardAux]
        rw [if_neg hout]
      rw [hstep, hrec, hiter (k - 1), Nat.sub_add_cancel (by omega : 1 ≤ k)]

theorem doReverseAux_spec (p : EncParams) (hv : ValidParams p) :
    ∀ (fuel : Nat) (bs : List Nat), WF p.domainBytes bs →
    ∀ (k : Nat), 0 < k → k ≤ fuel + 1 →
    (encG p)^[k] (bytesToValue bs) < p.domain →
    (∀ j, 0 < j → j < k → p.domain ≤ (encG p)^[j] (bytesToValue bs)) →
    doReverseAux p fuel bs = (encG p)^[k] (bytesToValue bs) := by
  intro fuel
  induction fuel with
  | zero =>
    intro bs hwf k hk0 hk1 hin _
    have hk : k = 1 := by omega
    subst hk
    have h1 : (encG p)^[1] (bytesToValue bs) = bytesToValue (revPass p bs) := by
      rw [Function.iterate_one, encG_bytes p hwf]
    rw [h1] at hin ⊢
    simp only [doReverseAux, hin, if_pos]
  | succ fuel ih =>
    intro bs hwf k hk0 hk1 hin hmin
    have h1 : encG p (bytesToValue bs) = bytesToValue (revPass p bs) :=
      encG_bytes p hwf
    rcases Nat.eq_or_lt_of_le hk0 with hk | hk
    · have hk' : k = 1 := hk.symm
      subst hk'
      have h1' : (encG p)^[1] (bytesToValue bs) = bytesToValue (revPass p bs) := by
        rw [Function.iterate_one, h1]
      rw [h1'] at hin ⊢
      simp only [doReverseAux, hin, if_pos]
    · have hout : ¬ bytesToValue (revPass p bs) < p.domain := by
        have := hmin 1 (by omega) (by omega)
        rw [Function.iterate_one, h1] at this
        omega
      have hwf2 : WF p.domainBytes (revPass p bs) := revPass_wf p hv hwf
      have hiter : ∀ j, (encG p)^[j] (bytesToValue (revPass p bs))
          = (encG p)^[j + 1] (bytesToValue bs) := by
        intro j
        rw [← h1, ← Function.iterate_succ_apply]
      have hrec := ih (revPass p bs) hwf2 (k - 1) (by omega) (by omega)
        (by rw [hiter (k - 1), Nat.sub_add_cancel (by omega : 1 ≤ k)]; exact hin)
        (by
          intro j hj0 hjk
          rw [hiter j]
          exact hmin (j + 1) (by omega) (by omega))
      have hstep : doReverseAux p (fuel + 1) bs = doReverseAux p fuel (revPass p bs) := by
        simp only [doReverseAux]
        rw [if_neg hout]
      rw [hstep, hrec, hiter (k - 1), Nat.sub_add_cancel (by omega : 1 ≤ k)]

/-! ## Validity of constructed parameters -/

theorem extractKeyBytes_mem_lt (key : Nat) : ∀ b ∈ extractKeyBytes key, b < 256 := by
  induction key using Nat.strong_induction_on with
  | _ key ih =>
    by_cases h : key = 0
    · rw [extractKeyBytes, dif_pos h]
      simp
    · rw [extractKeyBytes, dif_neg h]
      intro b hb
      rcases List.mem_cons.mp hb with hb | hb
      · rw [hb, and255_eq_mod]
        exact Nat.mod_lt _ (by norm_num)
      · refine ih (key >>> 8) ?_ b hb
        rw [shiftRight8_eq_div]
        exact Nat.div_lt_self (by omega) (by norm_num)

theorem lt_pow_byteLen (n : Nat) : n < 256 ^ byteLen n := by
  induction n using Nat.strong_induction_on with
  | _ n ih =>
    by_cases h : n = 0
    · rw [byteLen, dif_pos h, h]
      norm_num
    · rw [byteLen, dif_neg h]
      have hlt : n >>> 8 < n := by
        rw [shiftRight8_eq_div]
        exact Nat.div_lt_self (by omega) (by norm_num)
      have hdiv := ih (n >>> 8) hlt
      have hsr : n >>> 8 = n / 256 := shiftRight8_eq_div n
      have hmod := Nat.div_add_mod n 256
      have hm : n % 256 < 256 := Nat.mod_lt _ (by norm_num)
      have hp : (256 : Nat) ^ (byteLen (n >>> 8) + 1)
          = 256 * 256 ^ byteLen (n >>> 8) := by ring
      rw [hp]
      omega

theorem mkEnc_single (d t : Nat) (h : byteLen (d - 1) = 1) :
    mkEnc d t =
      { domain := d, domainBytes := 1,
        xorBytes := [((extractKeyBytes (d * t * 603868999)).reverse.foldl
            (fun acc xorByte => acc ^^^ xorByte) 0)
          &&& ((BITS.filter (fun bit => bit < d)).foldl (fun acc bit => acc ||| bit) 0)],
        bits := [1], inverseBits := [0xFE], rounds := 1 } := by
  unfold mkEnc
  simp [h, BITS, INVERSE_BITS]

theorem mkEnc_multi (d t : Nat) (h : byteLen (d - 1) ≠ 1) :
    mkEnc d t =
      { domain := d, domainBytes := byteLen (d - 1),
        xorBytes := (extractKeyBytes (d * t * 603868999)).reverse,
        bits := (extractKeyBytes (d * t * 603868999)).map
          (fun keyByte => BITS.getD (keyByte &&& 0x07) 0),
        inverseBits := (extractKeyBytes (d * t * 603868999)).map
          (fun keyByte => INVERSE_BITS.getD (keyByte &&& 0x07) 0),
        rounds := (extractKeyBytes (d * t * 603868999)).reverse.length } := by
  unfold mkEnc
  simp [h]

theorem mkEnc_domain (d t : Nat) : (mkEnc d t).domain = d := by
  by_cases h : byteLen (d - 1) = 1
  · rw [mkEnc_single d t h]
  · rw [mkEnc_multi d t h]

theorem mkEnc_domainBytes (d t : Nat) :
    (mkEnc d t).domainBytes = byteLen (d - 1) := by
  by_cases h : byteLen (d - 1) = 1
  · rw [mkEnc_single d t h, h]
  · rw [mkEnc_multi d t h]

theorem mkEnc_domain_le (d t : Nat) :
    d ≤ 256 ^ (mkEnc d t).domainBytes := by
  rw [mkEnc_domainBytes]
  have := lt_pow_byteLen (d - 1)
  omega

theorem foldl_or_lt (l : List Nat) (hl : ∀ x ∈ l, x < 256) :
    ∀ acc < 256, l.foldl (fun acc bit => acc ||| bit) acc < 256 := by
  induction l with
  | nil => intro acc hacc; simpa using hacc
  | cons x rest ih =>
    intro acc hacc
    rw [List.foldl_cons]
    refine ih (fun y hy => hl y (by simp [hy])) _ ?_
    have h1 : acc ||| x < 2 ^ 8 :=
      Nat.or_lt_two_pow (by omega) (by have := hl x (by simp); omega)
    omega

theorem mkEnc_valid (d t : Nat) : ValidParams (mkEnc d t) := by
  by_cases h : byteLen (d - 1) = 1
  · rw [mkEnc_single d t h]
    intro r hr
    simp only at hr
    have hr0 : r = 0 := by omega
    subst hr0
    constructor
    · exact ⟨0, by norm_num, by simp [BITS], by simp [INVERSE_BITS]⟩
    · simp only [List.getD]
      have hmask : (BITS.filter (fun bit => bit < d)).foldl
          (fun acc bit => acc ||| bit) 0 < 256 := by
        refine foldl_or_lt _ ?_ 0 (by norm_num)
        intro x hx
        have : x ∈ BITS := List.mem_of_mem_filter hx
        fin_cases this <;> norm_num
      have := Nat.and_lt_two_pow
        ((extractKeyBytes (d * t * 603868999)).reverse.foldl
          (fun acc xorByte => acc ^^^ xorByte) 0)
        (show (BITS.filter (fun bit => bit < d)).foldl
          (fun acc bit => acc ||| bit) 0 < 2 ^ 8 by omega)
      simpa using this
  · rw [mkEnc_multi d t h]
    intro r hr
    simp only [List.length_reverse] at hr
    set e := extractKeyBytes (d * t * 603868999) with he
    constructor
    · have hb : (e.map (fun keyByte => BITS.getD (keyByte &&& 0x07) 0)).getD r 0
          = BITS.getD (e.getD r 0 &&& 0x07) 0 := getD_map_lt e _ r hr
      have hib : (e.map (fun keyByte => INVERSE_BITS.getD (keyByte &&& 0x07) 0)).getD r 0
          = INVERSE_BITS.getD (e.getD r 0 &&& 0x07) 0 := getD_map_lt e _ r hr
      refine ⟨e.getD r 0 &&& 0x07, ?_, ?_, ?_⟩
      · have : e.getD r 0 &&& 0x07 ≤ 0x07 := Nat.and_le_right
        omega
      · simpa using hb
      · simpa using hib
    · have hrr : r < e.reverse.length := by simpa using hr
      have hmem : e.reverse.getD r 0 ∈ e.reverse := getD_mem_of_lt _ r hrr
      rw [List.mem_reverse] at hmem
      simpa using extractKeyBytes_mem_lt _ _ hmem

/-! ## Main forward/reverse characterisation -/

theorem fuel_eq_pow (B : Nat) : 2 ^ (8 * B) = 256 ^ B := by
  rw [Nat.pow_mul]

theorem iterate_lt_all {f : Nat → Nat} {M : Nat}
    (hf : ∀ v, f v < M) {v : Nat} (hv : v < M) (k : Nat) : f^[k] v < M := by
  rcases Nat.eq_zero_or_pos k with hk | hk
  · simpa [hk] using hv
  · exact iterate_lt_of_lt hf v k hk

/-- The forward cycle walk reaches the minimal in-domain iterate. -/
theorem doForward_eq_iterate (p : EncParams) (hv : ValidParams p)
    (hdm : p.domain ≤ 256 ^ p.domainBytes) (v : Nat) (hvd : v < p.domain) :
    ∃ k, 0 < k ∧ k ≤ 256 ^ p.domainBytes ∧ doForward p v = (encF p)^[k] v ∧
      (encF p)^[k] v < p.domain ∧
      (∀ j, 0 < j → j < k → p.domain ≤ (encF p)^[j] v) := by
  have hvM : v < 256 ^ p.domainBytes := by omega
  obtain ⟨k₀, hk₀0, hk₀M, hk₀eq⟩ :=
    orbit_returns (encF_lt p hv) (encG_encF p hv) v hvM
  have hex : ∃ j, 0 < j ∧ (encF p)^[j] v < p.domain :=
    ⟨k₀, hk₀0, by rw [hk₀eq]; exact hvd⟩
  set k := Nat.find hex with hk
  obtain ⟨hkpos, hkin⟩ := Nat.find_spec hex
  have hkle : k ≤ k₀ := Nat.find_min' hex ⟨hk₀0, by rw [hk₀eq]; exact hvd⟩
  have hmin : ∀ j, 0 < j → j < k → p.domain ≤ (encF p)^[j] v := by
    intro j hj0 hjk
    have := Nat.find_min hex hjk
    push_neg at this
    exact this hj0
  refine ⟨k, hkpos, by omega, ?_, hkin, hmin⟩
  have hbv : bytesToValue (valueToBytes p.domainBytes v) = v := by
    rw [bytesToValue_valueToBytes, Nat.mod_eq_of_lt hvM]
  rw [doForward, fuel_eq_pow]
  rw [doForwardAux_spec p hv _ _ (valueToBytes_wf _ v) k hkpos (by omega)
    (by rw [hbv]; exact hkin) (by rw [hbv]; exact hmin), hbv]

/-- The reverse cycle walk reaches the minimal in-domain iterate. -/
theorem doReverse_eq_iterate (p : EncParams) (hv : ValidParams p)
    (hdm : p.domain ≤ 256 ^ p.domainBytes) (w : Nat) (hwd : w < p.domain) :
    ∃ k, 0 < k ∧ k ≤ 256 ^ p.domainBytes ∧ doReverse p w = (encG p)^[k] w ∧
      (encG p)^[k] w < p.domain ∧
      (∀ j, 0 < j → j < k → p.domain ≤ (encG p)^[j] w) := by
  have hwM : w < 256 ^ p.domainBytes := by omega
  obtain ⟨k₀, hk₀0, hk₀M, hk₀eq⟩ :=
    orbit_returns (encG_lt p hv) (encF_encG p hv) w hwM
  have hex : ∃ j, 0 < j ∧ (encG p)^[j] w < p.domain :=
    ⟨k₀, hk₀0, by rw [hk₀eq]; exact hwd⟩
  set k := Nat.find hex with hk
  obtain ⟨hkpos, hkin⟩ := Nat.find_spec hex
  have hkle : k ≤ k₀ := Nat.find_min' hex ⟨hk₀0, by rw [hk₀eq]; exact hwd⟩
  have hmin : ∀ j, 0 < j → j < k → p.domain ≤ (encG p)^[j] w := by
    intro j hj0 hjk
    have := Nat.find_min hex hjk
    push_neg at this
    exact this hj0
  refine ⟨k, hkpos, by omega, ?_, hkin, hmin⟩
  have hbv : bytesToValue (valueToBytes p.domainBytes w) = w := by
    rw [bytesToValue_valueToBytes, Nat.mod_eq_of_lt hwM]
  rw [doReverse, fuel_eq_pow]
  rw [doReverseAux_spec p hv _ _ (valueToBytes_wf _ w) k hkpos (by omega)
    (by rw [hbv]; exact hkin) (by rw [hbv]; exact hmin), hbv]

theorem doForward_lt (p : EncParams) (hv : ValidParams p)
    (hdm : p.domain ≤ 256 ^ p.domainBytes) (v : Nat) (hvd : v < p.domain) :
    doForward p v < p.domain := by
  obtain ⟨k, _, _, heq, hin, _⟩ := doForward_eq_iterate p hv hdm v hvd
  rw [heq]; exact hin

theorem doReverse_lt (p : EncParams) (hv : ValidParams p)
    (hdm : p.domain ≤ 256 ^ p.domainBytes) (w : Nat) (hwd : w < p.domain) :
    doReverse p w < p.domain := by
  obtain ⟨k, _, _, heq, hin, _⟩ := doReverse_eq_iterate p hv hdm w hwd
  rw [heq]; exact hin

/-- Iterating the reverse round from a forward iterate steps back through the
forward orbit. -/
theorem encG_iterate_encF (p : EncParams) (hv : ValidParams p)
    {M : Nat} (hM : M = 256 ^ p.domainBytes) (v : Nat) (hvM : v < M)
    (k : Nat) : ∀ j ≤ k, (encG p)^[j] ((encF p)^[k] v) = (encF p)^[k - j] v := by
  intro j hj
  induction j with
  | zero => simp
  | succ j ih =>
    have hj' : j ≤ k := by omega
    rw [Function.iterate_succ_apply', ih hj']
    have hk1 : k - j = (k - (j + 1)) + 1 := by omega
    rw [hk1, Function.iterate_succ_apply']
    refine encG_encF p hv _ ?_
    subst hM
    exact iterate_lt_all (encF_lt p hv) hvM _

theorem encF_iterate_encG (p : EncParams) (hv : ValidParams p)
    {M : Nat} (hM : M = 256 ^ p.domainBytes) (w : Nat) (hwM : w < M)
    (k : Nat) : ∀ j ≤ k, (encF p)^[j] ((encG p)^[k] w) = (encG p)^[k - j] w := by
  intro j hj
  induction j with
  | zero => simp
  | succ j ih =>
    have hj' : j ≤ k := by omega
    rw [Function.iterate_succ_apply', ih hj']
    have hk1 : k - j = (k - (j + 1)) + 1 := by omega
    rw [hk1, Function.iterate_succ_apply']
    refine encF_encG p hv _ ?_
    subst hM
    exact iterate_lt_all (encG_lt p hv) hwM _

/-- `doReverse` undoes `doForward` on the domain. -/
theorem doReverse_doForward (p : EncParams) (hv : ValidParams p)
    (hdm : p.domain ≤ 256 ^ p.domainBytes) (v : Nat) (hvd : v < p.domain) :
    doReverse p (doForward p v) = v := by
  obtain ⟨k, hkpos, hkM, heq, hin, hmin⟩ := doForward_eq_iterate p hv hdm v hvd
  set w := (encF p)^[k] v with hw
  have hvM : v < 256 ^ p.domainBytes := by omega
  have hGj := encG_iterate_encF p hv rfl v hvM k
  have hwd : w < p.domain := hin
  have hwM : w < 256 ^ p.domainBytes := by omega
  have hbw : bytesToValue (valueToBytes p.domainBytes w) = w := by
    rw [bytesToValue_valueToBytes, Nat.mod_eq_of_lt hwM]
  rw [heq]
  rw [doReverse, fuel_eq_pow]
  rw [doReverseAux_spec p hv _ _ (valueToBytes_wf _ w) k hkpos (by omega)
    (by rw [hbw, hGj k (le_refl k)]; simpa using hvd)
    (by
      intro j hj0 hjk
      rw [hbw, hGj j (by omega)]
      exact hmin (k - j) (by omega) (by omega)), hbw]
  rw [hGj k (le_refl k)]
  simp

/-- `doForward` undoes `doReverse` on the domain. -/
theorem doForward_doReverse (p : EncParams) (hv : ValidParams p)
    (hdm : p.domain ≤ 256 ^ p.domainBytes) (w : Nat) (hwd : w < p.domain) :
    doForward p (doReverse p w) = w := by
  obtain ⟨k, hkpos, hkM, heq, hin, hmin⟩ := doReverse_eq_iterate p hv hdm w hwd
  set v := (encG p)^[k] w with hv'
  have hwM : w < 256 ^ p.domainBytes := by omega
  have hFj := encF_iterate_encG p hv rfl w hwM k
  have hvd : v < p.domain := hin
  have hvM : v < 256 ^ p.domainBytes := by omega
  have hbv : bytesToValue (valueToBytes p.domainBytes v) = v := by
    rw [bytesToValue_valueToBytes, Nat.mod_eq_of_lt hvM]
  rw [heq]
  rw [doForward, fuel_eq_pow]
  rw [doForwardAux_spec p hv _ _ (valueToBytes_wf _ v) k hkpos (by omega)
    (by rw [hbv, hFj k (le_refl k)]; simpa using hwd)
    (by
      intro j hj0 hjk
      rw [hbv, hFj j (by omega)]
      exact hmin (k - j) (by omega) (by omega)), hbv]
  rw [hFj k (le_refl k)]
  simp

/-! ## Evaluation helpers for short cycle walks -/

theorem doForward_eval_one (p : EncParams) (hv : ValidParams p)
    (v : Nat) (hvM : v < 256 ^ p.domainBytes) (h1 : encF p v < p.domain) :
    doForward p v = encF p v := by
  have hbv : bytesToValue (valueToBytes p.domainBytes v) = v := by
    rw [bytesToValue_valueToBytes, Nat.mod_eq_of_lt hvM]
  rw [doForward, fuel_eq_pow]
  rw [doForwardAux_spec p hv _ _ (valueToBytes_wf _ v) 1 (by omega)
    (by omega) (by rw [hbv, Function.iterate_one]; exact h1)
    (by intro j hj0 hj1; omega), hbv, Function.iterate_one]

theorem doForward_eval_two (p : EncParams) (hv : ValidParams p)
    (v : Nat) (hvM : v < 256 ^ p.domainBytes)
    (h1 : ¬ encF p v < p.domain) (h2 : encF p (encF p v) < p.domain) :
    doForward p v = encF p (encF p v) := by
  have hbv : bytesToValue (valueToBytes p.domainBytes v) = v := by
    rw [bytesToValue_valueToBytes, Nat.mod_eq_of_lt hvM]
  have h2' : (encF p)^[2] v = encF p (encF p v) := by
    simp only [show (2 : Nat) = 1 + 1 from rfl, Function.iterate_add_apply,
      Function.iterate_one]
  rw [doForward, fuel_eq_pow]
  rw [doForwardAux_spec p hv _ _ (valueToBytes_wf _ v) 2 (by norm_num)
    (by omega) (by rw [hbv, h2']; exact h2)
    (by
      intro j hj0 hj2
      have hj1 : j = 1 := by omega
      rw [hbv, hj1, Function.iterate_one]
      omega), hbv, h2']

theorem doReverse_eval_one (p : EncParams) (hv : ValidParams p)
    (v : Nat) (hvM : v < 256 ^ p.domainBytes) (h1 : encG p v < p.domain) :
    doReverse p v = encG p v := by
  have hbv : bytesToValue (valueToBytes p.domainBytes v) = v := by
    rw [bytesToValue_valueToBytes, Nat.mod_eq_of_lt hvM]
  rw [doReverse, fuel_eq_pow]
  rw [doReverseAux_spec p hv _ _ (valueToBytes_wf _ v) 1 (by omega)
    (by omega) (by rw [hbv, Function.iterate_one]; exact h1)
    (by intro j hj0 hj1; omega), hbv, Function.iterate_one]

theorem doReverse_eval_two (p : EncParams) (hv : ValidParams p)
    (v : Nat) (hvM : v < 256 ^ p.domainBytes)
    (h1 : ¬ encG p v < p.domain) (h2 : encG p (encG p v) < p.domain) :
    doReverse p v = encG p (encG p v) := by
  have hbv : bytesToValue (valueToBytes p.domainBytes v) = v := by
    rw [bytesToValue_valueToBytes, Nat.mod_eq_of_lt hvM]
  have h2' : (encG p)^[2] v = encG p (encG p v) := by
    simp only [show (2 : Nat) = 1 + 1 from rfl, Function.iterate_add_apply,
      Function.iterate_one]
  rw [doReverse, fuel_eq_pow]
  rw [doReverseAux_spec p hv _ _ (valueToBytes_wf _ v) 2 (by norm_num)
    (by omega) (by rw [hbv, h2']; exact h2)
    (by
      intro j hj0 hj2
      have hj1 : j = 1 := by omega
      rw [hbv, hj1, Function.iterate_one]
      omega), hbv, h2']

/-! ## Single-byte and zero-round evaluations -/

theorem bytesToValue_singleton (b : Nat) : bytesToValue [b] = b := by
  simp [bytesToValue]

theorem valueToBytes_one (v : Nat) (hv : v < 256) : valueToBytes 1 v = [v] := by
  simp [valueToBytes, and255_eq_mod, Nat.mod_eq_of_lt hv]

theorem shuffle_singleton {bit inv : Nat} (h : ValidBitPair bit inv)
    (b : Nat) (hb : b < 256) (forward : Bool) :
    shuffle [b] bit inv forward = [b] := by
  have hperm0 : (shufflePerm [b] bit).getD 0 0 = 0 := by
    have h1 := shufflePerm_getD_lt [b] bit 0 (by simp)
    simp only [List.length_singleton] at h1
    omega
  apply ext_getD _ _ (by rw [shuffle_length])
  intro j hj
  simp only [List.length_singleton] at hj
  have hj0 : j = 0 := by omega
  subst hj0
  rcases forward with _ | _
  · have := shuffle_rev_getD [b] bit inv 0 (by simp)
    rw [hperm0] at this
    rw [this]
    simpa using recomb_self h b hb
  · have := shuffle_fwd_getD [b] bit inv 0 (by simp)
    rw [hperm0] at this
    rw [this]
    simpa using recomb_self h b hb

theorem encF_single (p : EncParams) (hvp : ValidParams p)
    (hB : p.domainBytes = 1) (hrounds : p.rounds = 1)
    (v : Nat) (hv : v < 256) :
    encF p v = v ^^^ p.xorBytes.getD 0 0 := by
  have hpair : ValidBitPair (p.bits.getD 0 0) (p.inverseBits.getD 0 0) :=
    (hvp 0 (by omega)).1
  rw [encF, hB, valueToBytes_one v hv, fwdPass, hrounds]
  rw [show List.range 1 = [0] from rfl]
  rw [List.foldl_cons, List.foldl_nil, roundFwd,
    shuffle_singleton hpair v hv true]
  rw [show xorChain true (p.xorBytes.getD 0 0) [v]
      = [v ^^^ p.xorBytes.getD 0 0] from rfl]
  exact bytesToValue_singleton _

theorem encG_single (p : EncParams) (hvp : ValidParams p)
    (hB : p.domainBytes = 1) (hrounds : p.rounds = 1)
    (v : Nat) (hv : v < 256) :
    encG p v = v ^^^ p.xorBytes.getD 0 0 := by
  have hpair : ValidBitPair (p.bits.getD 0 0) (p.inverseBits.getD 0 0) :=
    (hvp 0 (by omega)).1
  have hxk : p.xorBytes.getD 0 0 < 256 := (hvp 0 (by omega)).2
  have hxor : v ^^^ p.xorBytes.getD 0 0 < 256 := by
    have : v ^^^ p.xorBytes.getD 0 0 < 2 ^ 8 :=
      Nat.xor_lt_two_pow (by omega) (by omega)
    omega
  rw [encG, hB, valueToBytes_one v hv, revPass, hrounds]
  rw [show (List.range 1).reverse = [0] from rfl]
  rw [List.foldl_cons, List.foldl_nil, roundRev]
  rw [show xorChain false (p.xorBytes.getD 0 0) [v]
      = [v ^^^ p.xorBytes.getD 0 0] from rfl]
  rw [shuffle_singleton hpair _ hxor false]
  exact bytesToValue_singleton _

theorem encF_zero_rounds (p : EncParams) (h : p.rounds = 0)
    (v : Nat) (hvM : v < 256 ^ p.domainBytes) : encF p v = v := by
  rw [encF, fwdPass, h]
  rw [show List.range 0 = [] from rfl, List.foldl_nil,
    bytesToValue_valueToBytes, Nat.mod_eq_of_lt hvM]

theorem byteLen_one (D : Nat) (h2 : 2 ≤ D) (h256 : D ≤ 256) :
    byteLen (D - 1) = 1 := by
  have hz : (D - 1) >>> 8 = 0 := by
    rw [shiftRight8_eq_div]
    omega
  rw [byteLen, dif_neg (show ¬(D - 1 = 0) by omega), hz, byteLen, dif_pos rfl]

theorem extractKeyBytes_zero : extractKeyBytes 0 = [] := by
  rw [extractKeyBytes, dif_pos rfl]

/-! ## Claims about the transformer -/

/-- **C1**: for every domain `D > 0` and every tweak (absent or a
non-negative integer), the transformer returned by `Transformer.get(D, tweak)`
has `forward` restricted to `[0, D)` a bijection onto `[0, D)` (it maps the
domain into the domain, injectively and surjectively), and
`reverse(forward(v)) = v` for every `v` in `[0, D)`. -/
theorem claim_C1 (D : Nat) (hD : 0 < D) (tweak : Option Nat) :
    (∀ v < D, (Transformer.get D tweak).forwardV v < D ∧
      (Transformer.get D tweak).reverseV ((Transformer.get D tweak).forwardV v) = v) ∧
    (∀ v₁ < D, ∀ v₂ < D,
      (Transformer.get D tweak).forwardV v₁ = (Transformer.get D tweak).forwardV v₂ →
        v₁ = v₂) ∧
    (∀ w < D, ∃ v < D, (Transformer.get D tweak).forwardV v = w) := by
  rcases tweak with _ | t
  · exact ⟨fun v hv => ⟨hv, rfl⟩, fun v₁ _ v₂ _ h => h,
      fun w hw => ⟨w, hw, rfl⟩⟩
  · have hv := mkEnc_valid D t
    have hdom : (mkEnc D t).domain = D := mkEnc_domain D t
    have hdm : (mkEnc D t).domain ≤ 256 ^ (mkEnc D t).domainBytes := by
      rw [hdom]; exact mkEnc_domain_le D t
    refine ⟨?_, ?_, ?_⟩
    · intro v hvd
      refine ⟨?_, ?_⟩
      · have := doForward_lt (mkEnc D t) hv hdm v (by rw [hdom]; exact hvd)
        rwa [hdom] at this
      · exact doReverse_doForward (mkEnc D t) hv hdm v (by rw [hdom]; exact hvd)
    · intro v₁ hv₁ v₂ hv₂ heq
      have h₁ := doReverse_doForward (mkEnc D t) hv hdm v₁ (by rw [hdom]; exact hv₁)
      have h₂ := doReverse_doForward (mkEnc D t) hv hdm v₂ (by rw [hdom]; exact hv₂)
      calc v₁ = doReverse (mkEnc D t) (doForward (mkEnc D t) v₁) := h₁.symm
      _ = doReverse (mkEnc D t) (doForward (mkEnc D t) v₂) := by
          exact congrArg (doReverse (mkEnc D t)) heq
      _ = v₂ := h₂
    · intro w hw
      refine ⟨doReverse (mkEnc D t) w, ?_, ?_⟩
      · have := doReverse_lt (mkEnc D t) hv hdm w (by rw [hdom]; exact hw)
        rwa [hdom] at this
      · exact doForward_doReverse (mkEnc D t) hv hdm w (by rw [hdom]; exact hw)

/-- Witness for C1 at `D = 10`, `tweak = 7`, `v = 3`. -/
theorem claim_C1_witness :
    (Transformer.get 10 (some 7)).forwardV 3 < 10 ∧
    (Transformer.get 10 (some 7)).reverseV
      ((Transformer.get 10 (some 7)).forwardV 3) = 3 :=
  (claim_C1 10 (by norm_num) (some 7)).1 3 (by norm_num)

/-- **C6**: `Transformer.get(D, 0)` with an explicit zero tweak is a distinct
instance from `Transformer.get(D)` without a tweak (an `EncryptionTransformer`
rather than an `IdentityTransformer`), yet its forward maps every `v` in
`[0, D)` to itself. -/
theorem claim_C6 (D : Nat) (hD : 0 < D) :
    Transformer.get D (some 0) ≠ Transformer.get D none ∧
    ∀ v < D, (Transformer.get D (some 0)).forwardV v = v := by
  constructor
  · simp [Transformer.get]
  · intro v hvd
    show doForward (mkEnc D 0) v = v
    have hv := mkEnc_valid D 0
    have hdom : (mkEnc D 0).domain = D := mkEnc_domain D 0
    have hdm : D ≤ 256 ^ (mkEnc D 0).domainBytes := mkEnc_domain_le D 0
    have hkey : D * 0 * 603868999 = 0 := by ring
    have hvM : v < 256 ^ (mkEnc D 0).domainBytes := by omega
    have hid : encF (mkEnc D 0) v = v := by
      by_cases hB : byteLen (D - 1) = 1
      · have hBp : (mkEnc D 0).domainBytes = 1 := by
          rw [mkEnc_domainBytes, hB]
        have hrounds : (mkEnc D 0).rounds = 1 := by
          rw [mkEnc_single D 0 hB]
        have hv256 : v < 256 := by
          have : (256 : Nat) ^ (mkEnc D 0).domainBytes = 256 := by
            rw [hBp]; norm_num
          omega
        rw [encF_single (mkEnc D 0) hv hBp hrounds v hv256]
        have hxor : (mkEnc D 0).xorBytes.getD 0 0 = 0 := by
          rw [mkEnc_single D 0 hB]
          simp [hkey, extractKeyBytes_zero]
        rw [hxor, Nat.xor_zero]
      · have hrounds : (mkEnc D 0).rounds = 0 := by
          rw [mkEnc_multi D 0 hB]
          simp [hkey, extractKeyBytes_zero]
        exact encF_zero_rounds (mkEnc D 0) hrounds v hvM
    have := doForward_eval_one (mkEnc D 0) hv v hvM
      (by rw [hid, hdom]; exact hvd)
    rw [hid] at this
    exact this

/-- Witness for C6 at `D = 1000`, `v = 987`. -/
theorem claim_C6_witness :
    Transformer.get 1000 (some 0) ≠ Transformer.get 1000 none ∧
    (Transformer.get 1000 (some 0)).forwardV 987 = 987 :=
  ⟨(claim_C6 1000 (by norm_num)).1,
    (claim_C6 1000 (by norm_num)).2 987 (by norm_num)⟩

/-- **C8**: the cycle walks of `doForward` and `doReverse` terminate for every
domain `D > 0`, every tweak and every value in the domain: after finitely many
(and at most `256 ^ domainBytes`) repetitions of the full round sequence the
result lands inside the domain, and the returned value is that iterate. -/
theorem claim_C8 (D : Nat) (hD : 0 < D) (T v : Nat) (hv : v < D) :
    (∃ k, 0 < k ∧ k ≤ 256 ^ (mkEnc D T).domainBytes ∧
      (encF (mkEnc D T))^[k] v < D ∧
      doForward (mkEnc D T) v = (encF (mkEnc D T))^[k] v) ∧
    (∃ m, 0 < m ∧ m ≤ 256 ^ (mkEnc D T).domainBytes ∧
      (encG (mkEnc D T))^[m] v < D ∧
      doReverse (mkEnc D T) v = (encG (mkEnc D T))^[m] v) := by
  have hvp := mkEnc_valid D T
  have hdom : (mkEnc D T).domain = D := mkEnc_domain D T
  have hdm : (mkEnc D T).domain ≤ 256 ^ (mkEnc D T).domainBytes := by
    rw [hdom]; exact mkEnc_domain_le D T
  constructor
  · obtain ⟨k, hk0, hkM, heq, hin, _⟩ :=
      doForward_eq_iterate (mkEnc D T) hvp hdm v (by rw [hdom]; exact hv)
    exact ⟨k, hk0, hkM, by rwa [hdom] at hin, heq⟩
  · obtain ⟨m, hm0, hmM, heq, hin, _⟩ :=
      doReverse_eq_iterate (mkEnc D T) hvp hdm v (by rw [hdom]; exact hv)
    exact ⟨m, hm0, hmM, by rwa [hdom] at hin, heq⟩

/-- Witness for C8 at `D = 1000`, `T = 1234`, `v = 987`. -/
theorem claim_C8_witness :
    ∃ k, 0 < k ∧ k ≤ 256 ^ (mkEnc 1000 1234).domainBytes ∧
      (encF (mkEnc 1000 1234))^[k] 987 < 1000 ∧
      doForward (mkEnc 1000 1234) 987 = (encF (mkEnc 1000 1234))^[k] 987 :=
  (claim_C8 1000 (by norm_num) 1234 987 (by norm_num)).1

/-- **C10**: for single-byte domains `2 ≤ D ≤ 256` and any tweak, forward and
reverse are the same function, namely `v ↦ v xor k` when that stays in the
domain and `v ↦ v` otherwise, where `k` is the folded, domain-masked key byte
stored as the single xor byte; hence forward is an involution on `[0, D)`. -/
theorem claim_C10 (D : Nat) (h2 : 2 ≤ D) (h256 : D ≤ 256) (T v : Nat)
    (hv : v < D) :
    doForward (mkEnc D T) v =
      (if v ^^^ (mkEnc D T).xorBytes.getD 0 0 < D
        then v ^^^ (mkEnc D T).xorBytes.getD 0 0 else v) ∧
    doReverse (mkEnc D T) v = doForward (mkEnc D T) v ∧
    doForward (mkEnc D T) (doForward (mkEnc D T) v) = v := by
  have hB : byteLen (D - 1) = 1 := byteLen_one D h2 h256
  have hvp := mkEnc_valid D T
  have hdom : (mkEnc D T).domain = D := mkEnc_domain D T
  have hBp : (mkEnc D T).domainBytes = 1 := by rw [mkEnc_domainBytes, hB]
  have hrounds : (mkEnc D T).rounds = 1 := by rw [mkEnc_single D T hB]
  have hM : (256 : Nat) ^ (mkEnc D T).domainBytes = 256 := by
    rw [hBp]; norm_num
  have hk : (mkEnc D T).xorBytes.getD 0 0 < 256 := (hvp 0 (by omega)).2
  set k := (mkEnc D T).xorBytes.getD 0 0 with hkdef
  have hF : ∀ w < 256, encF (mkEnc D T) w = w ^^^ k :=
    fun w hw => encF_single (mkEnc D T) hvp hBp hrounds w hw
  have hG : ∀ w < 256, encG (mkEnc D T) w = w ^^^ k :=
    fun w hw => encG_single (mkEnc D T) hvp hBp hrounds w hw
  have hv256 : v < 256 := by omega
  have hxk : v ^^^ k < 256 := by
    have : v ^^^ k < 2 ^ 8 := Nat.xor_lt_two_pow (by omega) (by omega)
    omega
  have hcancel : (v ^^^ k) ^^^ k = v := Nat.xor_cancel_right _ _
  have hfwd : doForward (mkEnc D T) v = (if v ^^^ k < D then v ^^^ k else v) := by
    by_cases hcase : v ^^^ k < D
    · rw [if_pos hcase]
      have := doForward_eval_one (mkEnc D T) hvp v (by omega)
        (by rw [hF v hv256, hdom]; exact hcase)
      rwa [hF v hv256] at this
    · rw [if_neg hcase]
      have := doForward_eval_two (mkEnc D T) hvp v (by omega)
        (by rw [hF v hv256, hdom]; exact hcase)
        (by rw [hF v hv256, hF (v ^^^ k) hxk, hcancel, hdom]; exact hv)
      rwa [hF v hv256, hF (v ^^^ k) hxk, hcancel] at this
  have hrev : doReverse (mkEnc D T) v = (if v ^^^ k < D then v ^^^ k else v) := by
    by_cases hcase : v ^^^ k < D
    · rw [if_pos hcase]
      have := doReverse_eval_one (mkEnc D T) hvp v (by omega)
        (by rw [hG v hv256, hdom]; exact hcase)
      rwa [hG v hv256] at this
    · rw [if_neg hcase]
      have := doReverse_eval_two (mkEnc D T) hvp v (by omega)
        (by rw [hG v hv256, hdom]; exact hcase)
        (by rw [hG v hv256, hG (v ^^^ k) hxk, hcancel, hdom]; exact hv)
      rwa [hG v hv256, hG (v ^^^ k) hxk, hcancel] at this
  refine ⟨hfwd, by rw [hrev, hfwd], ?_⟩
  by_cases hcase : v ^^^ k < D
  · rw [hfwd, if_pos hcase]
    have hxk256 : v ^^^ k < 256 := hxk
    have hfwd2 : doForward (mkEnc D T) (v ^^^ k)
        = (if (v ^^^ k) ^^^ k < D then (v ^^^ k) ^^^ k else v ^^^ k) := by
      by_cases hcase2 : (v ^^^ k) ^^^ k < D
      · rw [if_pos hcase2]
        have := doForward_eval_one (mkEnc D T) hvp (v ^^^ k) (by omega)
          (by rw [hF (v ^^^ k) hxk256, hdom]; exact hcase2)
        rwa [hF (v ^^^ k) hxk256] at this
      · rw [hcancel] at hcase2
        omega
    rw [hfwd2, hcancel, if_pos hv]
  · rw [hfwd, if_neg hcase, hfwd]
    rw [if_neg hcase]

/-- Witness for C10 at `D = 10`, `T = 7`, `v = 3`. -/
theorem claim_C10_witness :
    doForward (mkEnc 10 7) 3 =
      (if 3 ^^^ (mkEnc 10 7).xorBytes.getD 0 0 < 10
        then 3 ^^^ (mkEnc 10 7).xorBytes.getD 0 0 else 3) ∧
    doReverse (mkEnc 10 7) 3 = doForward (mkEnc 10 7) 3 ∧
    doForward (mkEnc 10 7) (doForward (mkEnc 10 7) 3) = 3 :=
  claim_C10 10 (by norm_num) (by norm_num) 7 3 (by norm_num)

theorem getD_reverse_sub (l : List Nat) (r : Nat) (hr : r < l.length) :
    l.reverse.getD (l.length - 1 - r) 0 = l.getD r 0 := by
  have h1 : l.length - 1 - r < l.reverse.length := by
    rw [List.length_reverse]; omega
  rw [List.getD_eq_getElem _ _ h1, List.getD_eq_getElem _ _ hr,
    List.getElem_reverse]
  congr 1
  omega

theorem and7_eq_mod (x : Nat) : x &&& 0x07 = x % 8 := by
  have h : (0x07 : Nat) = 2 ^ 3 - 1 := by norm_num
  rw [h, Nat.and_pow_two_sub_one_eq_mod]

/-- Counterexample to **C9** as stated: in the transformer for domain 257 and
tweak 1, round 0's shuffle bit is not the single-bit mask selected by round
0's xor byte modulo 8 (the bits are stored in extraction order while the xor
bytes are reversed). -/
theorem claim_C9_counterexample :
    ¬ (∀ r < (mkEnc 257 1).rounds,
        (mkEnc 257 1).bits.getD r 0
          = BITS.getD ((mkEnc 257 1).xorBytes.getD r 0 % 8) 0) := by
  intro h
  have hB : ¬ (byteLen (257 - 1) = 1) := by simp [byteLen]
  have hext : extractKeyBytes (257 * 1 * 603868999) = [71, 150, 77, 34, 36] := by
    have harg : (257 : Nat) * 1 * 603868999 = 155194332743 := by norm_num
    rw [harg]
    simp [extractKeyBytes]
    decide
  have hbits : (mkEnc 257 1).bits = [128, 64, 32, 4, 16] := by
    rw [mkEnc_multi 257 1 hB]
    simp only [hext]
    simp only [List.map_cons, List.map_nil, and255_eq_mod, and7_eq_mod]
    norm_num [BITS]
  have hxor : (mkEnc 257 1).xorBytes = [36, 34, 77, 150, 71] := by
    rw [mkEnc_multi 257 1 hB]
    simp only [hext]
    decide
  have h5 : 0 < (mkEnc 257 1).rounds := by
    rw [mkEnc_multi 257 1 hB]
    simp only [hext]
    decide
  have h0 := h 0 h5
  rw [hbits, hxor] at h0
  simp [BITS] at h0

/-- **C9 (amended)**: for multi-byte constructions (`domainBytes ≠ 1`), the
shuffle bits are stored in key-byte extraction order while the xor bytes are
stored reversed, so round `r`'s shuffle bit is the single-bit mask selected by
the xor byte of round `rounds − 1 − r` modulo 8 — each extracted key byte
becomes the xor byte of one round and the shuffle bit of the opposite-numbered
round. -/
theorem claim_C9 (D T : Nat) (hB : byteLen (D - 1) ≠ 1) :
    ∀ r < (mkEnc D T).rounds,
      (mkEnc D T).bits.getD r 0
        = BITS.getD
            ((mkEnc D T).xorBytes.getD ((mkEnc D T).rounds - 1 - r) 0 % 8) 0 := by
  intro r hr
  rw [mkEnc_multi D T hB] at hr ⊢
  simp only [List.length_reverse] at hr ⊢
  set e := extractKeyBytes (D * T * 603868999) with he
  have hrl : r < e.length := by simpa using hr
  rw [getD_map_lt e _ r hrl, getD_reverse_sub e r hrl, and7_eq_mod]

/-- Witness for the amended C9 at `D = 257`, `T = 1`, `r = 0`. -/
theorem claim_C9_witness :
    ¬ (byteLen (257 - 1) = 1) ∧
    0 < (mkEnc 257 1).rounds ∧
    (mkEnc 257 1).bits.getD 0 0
      = BITS.getD
          ((mkEnc 257 1).xorBytes.getD ((mkEnc 257 1).rounds - 1 - 0) 0 % 8) 0 := by
  have hB : ¬ (byteLen (257 - 1) = 1) := by simp [byteLen]
  have hext : extractKeyBytes (257 * 1 * 603868999) = [71, 150, 77, 34, 36] := by
    have harg : (257 : Nat) * 1 * 603868999 = 155194332743 := by norm_num
    rw [harg]
    simp [extractKeyBytes]
    decide
  have h5 : 0 < (mkEnc 257 1).rounds := by
    rw [mkEnc_multi 257 1 hB]
    simp only [hext]
    decide
  exact ⟨hB, h5, claim_C9 257 1 hB 0 h5⟩

/-! ## Sequencer (`src/sequencer.ts`, stateful iterator variant)

The `Sequencer` class stores immutable bounds plus a mutable cursor
`_nextValue`; `[Symbol.iterator]()` returns `this`, `next()` yields the
cursor and advances it, `reset()` returns the cursor to the start. -/

structure SequencerS where
  startValue : Int
  endValue : Int
  count : Int
  nextDelta : Int
  minValue : Int
  maxValue : Int
  nextValue : Int
deriving DecidableEq

/-- The `Sequencer` constructor. -/
def mkSequencer (startValue : Int) (count : Int) : SequencerS :=
  let endValue := startValue + count
  if count ≥ 0 then
    { startValue := startValue, endValue := endValue, count := count,
      nextDelta := 1, minValue := startValue, maxValue := endValue - 1,
      nextValue := startValue }
  else
    { startValue := startValue, endValue := endValue, count := count,
      nextDelta := -1, minValue := endValue + 1, maxValue := startValue,
      nextValue := startValue }

/-- `Sequencer.next()`: `none` when the cursor has reached the exclusive end
(the iterator is done), otherwise the cursor value, advancing the cursor. -/
def SequencerS.next (s : SequencerS) : Option Int × SequencerS :=
  if s.nextValue = s.endValue then (none, s)
  else (some s.nextValue, { s with nextValue := s.nextValue + s.nextDelta })

/-- `Sequencer.reset()`: return the cursor to the start. -/
def SequencerS.reset (s : SequencerS) : SequencerS :=
  { s with nextValue := s.startValue }

/-- Driving the iterator: pull up to `fuel` elements (a `for..of` traversal
pulls until `next()` reports done). -/
def runSequencer : Nat → SequencerS → List Int × SequencerS
  | 0, s => ([], s)
  | fuel + 1, s =>
    match h : s.next with
    | (none, s') => ([], s')
    | (some v, s') =>
      let r := runSequencer fuel s'
      (v :: r.1, r.2)

theorem mkSequencer_nextValue (st c : Int) :
    (mkSequencer st c).nextValue = st := by
  rw [mkSequencer]
  split <;> rfl

theorem mkSequencer_startValue (st c : Int) :
    (mkSequencer st c).startValue = st := by
  rw [mkSequencer]
  split <;> rfl

theorem next_static (s : SequencerS) :
    (s.next.2.startValue = s.startValue ∧ s.next.2.endValue = s.endValue ∧
      s.next.2.nextDelta = s.nextDelta) := by
  rw [SequencerS.next]
  split <;> exact ⟨rfl, rfl, rfl⟩

theorem runSequencer_static (fuel : Nat) (s : SequencerS) :
    ((runSequencer fuel s).2.startValue = s.startValue ∧
      (runSequencer fuel s).2.endValue = s.endValue ∧
      (runSequencer fuel s).2.nextDelta = s.nextDelta) := by
  induction fuel generalizing s with
  | zero => exact ⟨rfl, rfl, rfl⟩
  | succ fuel ih =>
    obtain ⟨h1, h2, h3⟩ := next_static s
    rw [runSequencer]
    rcases hn : s.next with ⟨v, s'⟩
    rw [hn] at h1 h2 h3
    rcases v with _ | v
    · simp only
      exact ⟨h1, h2, h3⟩
    · simp only
      obtain ⟨g1, g2, g3⟩ := ih s'
      exact ⟨g1.trans h1, g2.trans h2, g3.trans h3⟩

/-- The sequence produced only depends on the cursor and the static iteration
fields, not on `count`/`minValue`/`maxValue`. -/
theorem runSequencer_fst_congr (fuel : Nat) (s t : SequencerS)
    (h1 : s.startValue = t.startValue) (h2 : s.endValue = t.endValue)
    (h3 : s.nextDelta = t.nextDelta) (h4 : s.nextValue = t.nextValue) :
    (runSequencer fuel s).1 = (runSequencer fuel t).1 := by
  induction fuel generalizing s t with
  | zero => rfl
  | succ fuel ih =>
    rw [runSequencer, runSequencer]
    rw [SequencerS.next, SequencerS.next]
    by_cases hend : s.nextValue = s.endValue
    · rw [if_pos hend, if_pos (by rw [← h4, ← h2]; exact hend)]
    · rw [if_neg hend, if_neg (by rw [← h4, ← h2]; exact hend)]
      simp only
      rw [h4]
      congr 1
      exact ih _ _ (by simp [h1]) (by simp [h2]) (by simp [h3]) (by simp [h3])

/-- Counterexample to **C3** as stated: traversal of the stateful `Sequencer`
mutates its cursor, so a second complete traversal of `Sequencer(10, 20)`
without a `reset()` yields the empty sequence, not the same sequence as the
first traversal. -/
theorem claim_C3_counterexample :
    ¬ ((runSequencer 21 ((runSequencer 21 (mkSequencer 10 20)).2)).1
        = (runSequencer 21 (mkSequencer 10 20)).1) := by
  decide

/-- **C3 (amended)**: `Sequencer(10, 20)` has start 10, exclusive end 30,
min 10, max 29 and iterates ascending; `Sequencer(29, -20)` has start 29,
exclusive end 9, min 10, max 29 and iterates descending.  Traversal, however,
advances the `Sequencer`'s internal cursor: a second complete traversal
yields the empty sequence unless `reset()` is called first, and after
`reset()` any traversal reproduces the original sequence exactly. -/
theorem claim_C3 :
    ((mkSequencer 10 20).startValue = 10 ∧ (mkSequencer 10 20).endValue = 30 ∧
      (mkSequencer 10 20).minValue = 10 ∧ (mkSequencer 10 20).maxValue = 29 ∧
      (mkSequencer 10 20).nextDelta = 1) ∧
    ((mkSequencer 29 (-20)).startValue = 29 ∧ (mkSequencer 29 (-20)).endValue = 9 ∧
      (mkSequencer 29 (-20)).minValue = 10 ∧ (mkSequencer 29 (-20)).maxValue = 29 ∧
      (mkSequencer 29 (-20)).nextDelta = -1) ∧
    (runSequencer 21 (mkSequencer 10 20)).1
      = [10, 11, 12, 13, 14, 15, 16, 17, 18, 19,
         20, 21, 22, 23, 24, 25, 26, 27, 28, 29] ∧
    (runSequencer 21 (mkSequencer 29 (-20))).1
      = [29, 28, 27, 26, 25, 24, 23, 22, 21, 20,
         19, 18, 17, 16, 15, 14, 13, 12, 11, 10] ∧
    (runSequencer 21 ((runSequencer 21 (mkSequencer 10 20)).2)).1 = [] ∧
    (∀ (start count : Int) (fuel : Nat),
      (runSequencer fuel
          ((runSequencer fuel (mkSequencer start count)).2.reset)).1
        = (runSequencer fuel (mkSequencer start count)).1) := by
  refine ⟨by decide, by decide, by decide, by decide, by decide, ?_⟩
  intro start count fuel
  obtain ⟨h1, h2, h3⟩ := runSequencer_static fuel (mkSequencer start count)
  apply runSequencer_fst_congr
  · simpa [SequencerS.reset] using h1
  · simpa [SequencerS.reset] using h2
  · simpa [SequencerS.reset] using h3
  · simp [SequencerS.reset, h1, mkSequencer_nextValue, mkSequencer_startValue]

/-! ## Batch `forward` (`Transformer.forward`, iterable overloads)

On a `Sequencer`, `forward` validates `minValue ≥ 0` and `maxValue < domain`
once, up front, then lazily maps `doForward` over the elements without
per-element validation.  On any other iterable, each element is validated
individually as it is consumed, so a failure surfaces mid-traversal after the
earlier transformed elements have already been produced.  The lazy traversal
is modelled by its trace: the list of produced elements plus whether the
traversal aborted with a range error. -/

/-- `Transformer.forward` on a `Sequencer` argument. -/
def Transformer.forwardSequencer (t : Transformer) (s : SequencerS) :
    Option (List Int) :=
  if s.minValue < 0 then none
  else if (t.domain : Int) ≤ s.maxValue then none
  else some (((runSequencer (s.count.natAbs + 1) s).1).map
    (fun v => ((t.forwardV v.toNat : Nat) : Int)))

/-- `Transformer.forward` on a non-`Sequencer` iterable: the trace of the
lazy per-element mapping, each element validated as it is consumed.  The
boolean records whether traversal aborted with a validation error. -/
def Transformer.forwardIterable (t : Transformer) : List Int → List Int × Bool
  | [] => ([], false)
  | x :: rest =>
    if x < 0 ∨ (t.domain : Int) ≤ x then ([], true)
    else
      let r := t.forwardIterable rest
      (((t.forwardV x.toNat : Nat) : Int) :: r.1, r.2)

/-- **C7**: batch `forward` over a `Sequencer` validates only `min ≥ 0` and
`max < domain`, eagerly, before producing any element — an out-of-bounds
`Sequencer` fails with nothing produced; over any other iterable each element
is validated as it is consumed, so a late element's violation surfaces
mid-traversal with all earlier transformed elements already produced (and a
fully valid iterable maps through with no error). -/
theorem claim_C7 (t : Transformer) :
    (∀ s : SequencerS, (s.minValue < 0 ∨ (t.domain : Int) ≤ s.maxValue) →
      t.forwardSequencer s = none) ∧
    (∀ pre x suf, (∀ y ∈ pre, 0 ≤ y ∧ y < (t.domain : Int)) →
      (x < 0 ∨ (t.domain : Int) ≤ x) →
      t.forwardIterable (pre ++ x :: suf)
        = (pre.map (fun v => ((t.forwardV v.toNat : Nat) : Int)), true)) ∧
    (∀ xs, (∀ y ∈ xs, 0 ≤ y ∧ y < (t.domain : Int)) →
      t.forwardIterable xs
        = (xs.map (fun v => ((t.forwardV v.toNat : Nat) : Int)), false)) := by
  refine ⟨?_, ?_, ?_⟩
  · intro s hs
    rw [Transformer.forwardSequencer]
    rcases hs with hs | hs
    · rw [if_pos hs]
    · by_cases hmin : s.minValue < 0
      · rw [if_pos hmin]
      · rw [if_neg hmin, if_pos hs]
  · intro pre x suf hpre hx
    induction pre with
    | nil =>
      rw [List.nil_append, Transformer.forwardIterable, if_pos (by omega)]
      rfl
    | cons y rest ih =>
      have hy := hpre y (by simp)
      rw [List.cons_append, Transformer.forwardIterable,
        if_neg (by omega)]
      rw [ih (fun z hz => hpre z (by simp [hz]))]
      rfl
  · intro xs hxs
    induction xs with
    | nil => rfl
    | cons y rest ih =>
      have hy := hxs y (by simp)
      rw [Transformer.forwardIterable, if_neg (by omega)]
      rw [ih (fun z hz => hxs z (by simp [hz]))]
      rfl

/-- Witness for C7 with the identity transformer on domain 10: the Sequencer
`(5, 10)` has max 14 ≥ 10 and fails eagerly; the plain iterable
`[3, 12, 4]` produces `[3]` before failing on 12. -/
theorem claim_C7_witness :
    (Transformer.get 10 none).forwardSequencer (mkSequencer 5 10) = none ∧
    (Transformer.get 10 none).forwardIterable ([3] ++ 12 :: [4]) = ([3], true) ∧
    (Transformer.get 10 none).forwardIterable [3, 4] = ([3, 4], false) := by
  refine ⟨?_, ?_, ?_⟩
  · exact (claim_C7 (Transformer.get 10 none)).1 (mkSequencer 5 10)
      (Or.inr (by decide))
  · exact (claim_C7 (Transformer.get 10 none)).2.1 [3] 12 [4]
      (by decide) (by decide)
  · exact (claim_C7 (Transformer.get 10 none)).2.2 [3, 4] (by decide)

/-! ## Character-set codec (`CharacterSetCreator`)

A `CharacterSetCreator` is built over an ordered list of distinct characters;
its behaviour depends only on the character-set size (the radix `R`) and, for
the `AllNumeric` exclusion, the index `z` of the glyph `"0"` (the constructor
validates that the glyphs `"0".."9"` occupy indexes `z .. z+9` in ascending
order).  Strings are embedded as lists of character-set indexes
(`characterSetMap.get(characterSet[i]) === i`, characters unique). -/

inductive Exclusion where
  | noneEx
  | firstZero
  | allNumeric
deriving DecidableEq

/-- `CharacterSetCreator.MAXIMUM_STRING_LENGTH`. -/
def MAXIMUM_STRING_LENGTH : Nat := 40

/-- The iterative `createPowersOf` loop: `powerOf` starts at 1 and is
multiplied by the base at each index. -/
def powersFrom (base cur : Nat) : Nat → List Nat
  | 0 => []
  | n + 1 => cur :: powersFrom base (cur * base) n

/-- `CharacterSetCreator.createPowersOf`: `base^0 .. base^40`. -/
def createPowersOf (base : Nat) : List Nat :=
  powersFrom base 1 (MAXIMUM_STRING_LENGTH + 1)

/-- `CharacterSetCreator.powerOf10`. -/
def powerOf10 (power : Nat) : Nat := (createPowersOf 10).getD power 0

/-- `_exclusionDomains[Exclusions.None]`. -/
def exclusionNoneDomains (R : Nat) : List Nat := createPowersOf R

/-- `_exclusionDomains[Exclusions.FirstZero]`: index 0 holds 0, index `i ≥ 1`
holds `(size − 1) * exclusionNoneDomains[i − 1]`. -/
def exclusionFirstZeroDomains (R : Nat) : List Nat :=
  0 :: (List.range MAXIMUM_STRING_LENGTH).map
    (fun index => (R - 1) * (exclusionNoneDomains R).getD index 0)

/-- `_exclusionDomains[Exclusions.AllNumeric]`: index `i` holds
`exclusionNoneDomains[i] - 10^i`. -/
def exclusionAllNumericDomains (R : Nat) : List Nat :=
  (List.range (MAXIMUM_STRING_LENGTH + 1)).map
    (fun index => (exclusionNoneDomains R).getD index 0 - powerOf10 index)

/-- `_allZerosValues`: each entry is the previous entry times the character
set size plus the zero index. -/
def allZerosValuesFrom (R z cur : Nat) : Nat → List Nat
  | 0 => []
  | n + 1 => cur :: allZerosValuesFrom R z (cur * R + z) n

def allZerosValues (R z : Nat) : List Nat :=
  allZerosValuesFrom R z 0 (MAXIMUM_STRING_LENGTH + 1)

/-- Domain lookup `_exclusionDomains[exclusion][length]`. -/
def exclusionDomain (R : Nat) (e : Exclusion) (len : Nat) : Nat :=
  match e with
  | .noneEx => (exclusionNoneDomains R).getD len 0
  | .firstZero => (exclusionFirstZeroDomains R).getD len 0
  | .allNumeric => (exclusionAllNumericDomains R).getD len 0

/-- `CharacterSetCreator.powerOfSize`: table access into the exclusion-none
domains. -/
def powerOfSize (R power : Nat) : Nat := (exclusionNoneDomains R).getD power 0

/-- `CharacterSetCreator.allNumericShift`.  `none` models the
"string must not be all-numeric" error thrown in the reverse direction. -/
def allNumericShift (R : Nat) (shiftForward : Bool) : Nat → Nat → Option Nat
  | 0, value =>
    if !shiftForward && value < 10 then none
    else some 10
  | length + 1, value =>
    let pS := powerOfSize R (length + 1)
    let p10 := powerOf10 (length + 1)
    -- gap to the next numeric string of equal length
    let gap := if shiftForward then pS - p10 else pS
    let gaps := value / gap
    if 10 ≤ gaps then some (powerOf10 (length + 2))
    else (allNumericShift R shiftForward length (value - gaps * gap)).map
      (fun shift => gaps * p10 + shift)

/-- The digit-building loop of `create` for positions `length-1 .. 1`
(right to left): returns the built suffix and the remaining convert value. -/
def buildLow (R : Nat) : Nat → Nat → List Nat × Nat
  | 0, convertValue => ([], convertValue)
  | k + 1, convertValue =>
    let next := buildLow R k (convertValue / R)
    (next.1 ++ [convertValue % R], next.2)

/-- The per-value body of `CharacterSetCreator.create`: convert the
transformed value to a string of character-set indexes.  The all-numeric
shift in the forward direction never errors, so its `Option` is unwrapped
with default 0 (unreachable). -/
def createOne (R z : Nat) (e : Exclusion) (len : Nat)
    (transformedValue : Nat) : List Nat :=
  if len = 0 then []
  else
    let allZerosValue :=
      if e = Exclusion.allNumeric then (allZerosValues R z).getD len 0 else 0
    let convertValue :=
      if e = Exclusion.allNumeric ∧ allZerosValue ≤ transformedValue then
        transformedValue
          + (allNumericShift R true len (transformedValue - allZerosValue)).getD 0
      else transformedValue
    let low := buildLow R (len - 1) convertValue
    (if e = Exclusion.firstZero then low.2 % (R - 1) + 1 else low.2 % R) :: low.1

/-- The character-by-character reduce of `valueFor`: `none` models the
invalid-character and leading-zero errors. -/
def decodeFold (R : Nat) (e : Exclusion) :
    List Nat → Nat → Nat → Option Nat
  | [], accumulator, _ => some accumulator
  | characterIndex :: rest, accumulator, index =>
    if characterIndex < R then
      if index = 0 ∧ e = Exclusion.firstZero then
        if characterIndex = 0 then none
        else decodeFold R e rest (characterIndex - 1) (index + 1)
      else decodeFold R e rest (accumulator * R + characterIndex) (index + 1)
    else none

/-- `valueFor` before the transformer reverse: decode the string and undo the
all-numeric shift. -/
def valueForPre (R z : Nat) (e : Exclusion) (s : List Nat) : Option Nat :=
  (decodeFold R e s 0 0).bind (fun value =>
    if e = Exclusion.allNumeric then
      if (allZerosValues R z).getD s.length 0 ≤ value then
        (allNumericShift R false s.length
            (value - (allZerosValues R z).getD s.length 0)).map
          (fun shift => value - shift)
      else some value
    else some value)

/-- `CharacterSetCreator.create` for a single value: validate the length,
look up the domain (the transformer constructor fails on domain 0), validate
the value against the domain, transform it, render it. -/
def codecCreate (R z : Nat) (e : Exclusion) (len : Nat) (tweak : Option Nat)
    (v : Nat) : Option (List Nat) :=
  if MAXIMUM_STRING_LENGTH < len then none
  else
    let d := exclusionDomain R e len
    if d = 0 then none
    else if v < d then
      some (createOne R z e len ((Transformer.get d tweak).forwardV v))
    else none

/-- `CharacterSetCreator.valueFor` for a single string. -/
def codecValueFor (R z : Nat) (e : Exclusion) (tweak : Option Nat)
    (s : List Nat) : Option Nat :=
  if MAXIMUM_STRING_LENGTH < s.length then none
  else
    (valueForPre R z e s).bind (fun value =>
      let d := exclusionDomain R e s.length
      if d = 0 then none
      else if value < d then some ((Transformer.get d tweak).reverseV value)
      else none)

/-! ## Table closed forms -/

theorem powersFrom_getD (base : Nat) :
    ∀ (n cur i : Nat), i < n →
      (powersFrom base cur n).getD i 0 = cur * base ^ i := by
  intro n
  induction n with
  | zero => intro cur i hi; omega
  | succ n ih =>
    intro cur i hi
    rcases i with _ | i
    · simp [powersFrom]
    · rw [powersFrom]
      have : (cur :: powersFrom base (cur * base) n).getD (i + 1) 0
          = (powersFrom base (cur * base) n).getD i 0 := rfl
      rw [this, ih (cur * base) i (by omega)]
      ring

theorem createPowersOf_getD (base i : Nat) (hi : i ≤ MAXIMUM_STRING_LENGTH) :
    (createPowersOf base).getD i 0 = base ^ i := by
  rw [createPowersOf, powersFrom_getD base _ 1 i (by omega), Nat.one_mul]

theorem powerOf10_eq (i : Nat) (hi : i ≤ MAXIMUM_STRING_LENGTH) :
    powerOf10 i = 10 ^ i :=
  createPowersOf_getD 10 i hi

theorem powerOfSize_eq (R i : Nat) (hi : i ≤ MAXIMUM_STRING_LENGTH) :
    powerOfSize R i = R ^ i :=
  createPowersOf_getD R i hi

theorem exclusionDomain_none (R len : Nat) (hlen : len ≤ MAXIMUM_STRING_LENGTH) :
    exclusionDomain R Exclusion.noneEx len = R ^ len :=
  createPowersOf_getD R len hlen

theorem exclusionDomain_firstZero_zero (R : Nat) :
    exclusionDomain R Exclusion.firstZero 0 = 0 := rfl

theorem exclusionNoneDomains_getD (R i : Nat) (hi : i ≤ MAXIMUM_STRING_LENGTH) :
    (exclusionNoneDomains R).getD i 0 = R ^ i :=
  createPowersOf_getD R i hi

theorem exclusionDomain_firstZero (R len : Nat) (h1 : 1 ≤ len)
    (hlen : len ≤ MAXIMUM_STRING_LENGTH) :
    exclusionDomain R Exclusion.firstZero len = (R - 1) * R ^ (len - 1) := by
  rcases len with _ | k
  · omega
  · show ((List.range MAXIMUM_STRING_LENGTH).map
        (fun index => (R - 1) * (exclusionNoneDomains R).getD index 0)).getD k 0
      = (R - 1) * R ^ (k + 1 - 1)
    have hk : k < MAXIMUM_STRING_LENGTH := by omega
    rw [getD_map_lt _ _ k (by simpa using hk)]
    have hrange : (List.range MAXIMUM_STRING_LENGTH).getD k 0 = k :=
      List.getD_eq_getElem _ _ (by simpa using hk) |>.trans (by simp)
    rw [hrange, exclusionNoneDomains_getD R k (by omega)]
    norm_num

theorem exclusionDomain_allNumeric (R len : Nat)
    (hlen : len ≤ MAXIMUM_STRING_LENGTH) :
    exclusionDomain R Exclusion.allNumeric len = R ^ len - 10 ^ len := by
  show ((List.range (MAXIMUM_STRING_LENGTH + 1)).map
      (fun index => (exclusionNoneDomains R).getD index 0 - powerOf10 index)).getD len 0
    = R ^ len - 10 ^ len
  rw [getD_map_lt _ _ len (by simpa using Nat.lt_succ_of_le hlen)]
  have hrange : (List.range (MAXIMUM_STRING_LENGTH + 1)).getD len 0 = len :=
    List.getD_eq_getElem _ _ (by simpa using Nat.lt_succ_of_le hlen) |>.trans (by simp)
  rw [hrange, exclusionNoneDomains_getD R len hlen, powerOf10_eq len hlen]

/-- Recursive closed form of the all-zeros table. -/
def allZerosRec (R z : Nat) : Nat → Nat
  | 0 => 0
  | n + 1 => allZerosRec R z n * R + z

theorem allZerosValuesFrom_getD (R z : Nat) :
    ∀ (n k i : Nat), i < n →
      (allZerosValuesFrom R z (allZerosRec R z k) n).getD i 0
        = allZerosRec R z (k + i) := by
  intro n
  induction n with
  | zero => intro k i hi; omega
  | succ n ih =>
    intro k i hi
    rcases i with _ | i
    · simp [allZerosValuesFrom]
    · rw [allZerosValuesFrom]
      have hstep : allZerosRec R z k * R + z = allZerosRec R z (k + 1) := rfl
      have : (allZerosRec R z k ::
            allZerosValuesFrom R z (allZerosRec R z k * R + z) n).getD (i + 1) 0
          = (allZerosValuesFrom R z (allZerosRec R z k * R + z) n).getD i 0 := rfl
      rw [this, hstep, ih (k + 1) i (by omega)]
      congr 1
      omega

theorem allZerosValues_getD (R z i : Nat) (hi : i ≤ MAXIMUM_STRING_LENGTH) :
    (allZerosValues R z).getD i 0 = allZerosRec R z i := by
  have h := allZerosValuesFrom_getD R z (MAXIMUM_STRING_LENGTH + 1) 0 i (by omega)
  simpa [allZerosValues, allZerosRec] using h

/-- **C5**: the precomputed admissible-value-count table satisfies, for every
length `0 ≤ len ≤ 40`: `radix^len` for `None`; `(radix−1)·radix^(len−1)` with
entry 0 at length 0 for `FirstZero`; and `radix^len − 10^len` for
`AllNumeric` (as integers; the constructor's digit validation guarantees
`radix ≥ 10` whenever `AllNumeric` is supported). -/
theorem claim_C5 (R len : Nat) (hlen : len ≤ MAXIMUM_STRING_LENGTH) :
    exclusionDomain R Exclusion.noneEx len = R ^ len ∧
    exclusionDomain R Exclusion.firstZero 0 = 0 ∧
    (1 ≤ len → exclusionDomain R Exclusion.firstZero len
      = (R - 1) * R ^ (len - 1)) ∧
    (10 ≤ R → (exclusionDomain R Exclusion.allNumeric len : Int)
      = (R : Int) ^ len - 10 ^ len) := by
  refine ⟨exclusionDomain_none R len hlen, exclusionDomain_firstZero_zero R,
    fun h1 => exclusionDomain_firstZero R len h1 hlen, fun hR => ?_⟩
  rw [exclusionDomain_allNumeric R len hlen]
  have hle : (10 : Nat) ^ len ≤ R ^ len := Nat.pow_le_pow_left hR len
  push_cast [Nat.cast_sub hle]
  ring

/-- Witness for C5 at `R = 16`, `len = 4`. -/
theorem claim_C5_witness :
    exclusionDomain 16 Exclusion.noneEx 4 = 16 ^ 4 ∧
    exclusionDomain 16 Exclusion.firstZero 0 = 0 ∧
    (1 ≤ 4 → exclusionDomain 16 Exclusion.firstZero 4 = 15 * 16 ^ 3) ∧
    ((10 : Nat) ≤ 16 → (exclusionDomain 16 Exclusion.allNumeric 4 : Int)
      = (16 : Int) ^ 4 - 10 ^ 4) :=
  claim_C5 16 4 (by norm_num [MAXIMUM_STRING_LENGTH])

/-! ## Transformer facts used by the codec -/

theorem getT_forward_lt (d : Nat) (tw : Option Nat) (v : Nat) (hv : v < d) :
    (Transformer.get d tw).forwardV v < d := by
  rcases tw with _ | t
  · exact hv
  · show doForward (mkEnc d t) v < d
    have hdom : (mkEnc d t).domain = d := mkEnc_domain d t
    have := doForward_lt (mkEnc d t) (mkEnc_valid d t)
      (by rw [hdom]; exact mkEnc_domain_le d t) v (by rw [hdom]; exact hv)
    rwa [hdom] at this

theorem getT_reverse_forward (d : Nat) (tw : Option Nat) (v : Nat)
    (hv : v < d) :
    (Transformer.get d tw).reverseV ((Transformer.get d tw).forwardV v) = v := by
  rcases tw with _ | t
  · rfl
  · show doReverse (mkEnc d t) (doForward (mkEnc d t) v) = v
    have hdom : (mkEnc d t).domain = d := mkEnc_domain d t
    exact doReverse_doForward (mkEnc d t) (mkEnc_valid d t)
      (by rw [hdom]; exact mkEnc_domain_le d t) v (by rw [hdom]; exact hv)

/-! ## Decode lemmas -/

theorem decodeFold_append (R : Nat) (e : Exclusion) (l₁ l₂ : List Nat) :
    ∀ (acc idx : Nat),
      decodeFold R e (l₁ ++ l₂) acc idx
        = (decodeFold R e l₁ acc idx).bind
            (fun a => decodeFold R e l₂ a (idx + l₁.length)) := by
  induction l₁ with
  | nil => intro acc idx; simp [decodeFold]
  | cons c rest ih =>
    intro acc idx
    rw [List.cons_append, decodeFold, decodeFold]
    by_cases hc : c < R
    · rw [if_pos hc, if_pos hc]
      by_cases hz : idx = 0 ∧ e = Exclusion.firstZero
      · rw [if_pos hz, if_pos hz]
        by_cases hc0 : c = 0
        · rw [if_pos hc0, if_pos hc0, Option.none_bind]
        · rw [if_neg hc0, if_neg hc0, ih]
          simp only [List.length_cons]
          rw [show idx + 1 + rest.length = idx + (rest.length + 1) from by omega]
      · rw [if_neg hz, if_neg hz, ih]
        simp only [List.length_cons]
        rw [show idx + 1 + rest.length = idx + (rest.length + 1) from by omega]
    · rw [if_neg hc, if_neg hc, Option.none_bind]

theorem buildLow_length (R : Nat) :
    ∀ (k cv : Nat), (buildLow R k cv).1.length = k := by
  intro k
  induction k with
  | zero => intro cv; rfl
  | succ k ih =>
    intro cv
    rw [buildLow]
    simp only [List.length_append, List.length_singleton]
    rw [ih (cv / R)]

theorem buildLow_snd (R : Nat) :
    ∀ (k cv : Nat), (buildLow R k cv).2 = cv / R ^ k := by
  intro k
  induction k with
  | zero => intro cv; simp [buildLow]
  | succ k ih =>
    intro cv
    rw [buildLow]
    simp only
    rw [ih (cv / R), Nat.div_div_eq_div_mul]
    congr 1
    ring

/-- Elements of the low-digit list are exactly the low base-`R` digits. -/
theorem buildLow_mem (R : Nat) :
    ∀ (k cv d : Nat), d ∈ (buildLow R k cv).1 → ∃ i < k, d = cv / R ^ i % R := by
  intro k
  induction k with
  | zero => intro cv d hd; cases hd
  | succ k ih =>
    intro cv d hd
    rw [buildLow] at hd
    simp only [List.mem_append, List.mem_singleton] at hd
    rcases hd with hd | hd
    · obtain ⟨i, hi, hdi⟩ := ih (cv / R) d hd
      refine ⟨i + 1, by omega, ?_⟩
      rw [hdi, Nat.div_div_eq_div_mul]
      congr 2
      ring
    · exact ⟨0, by omega, by simpa using hd⟩

/-- Decoding the low-digit list accumulates the low digits of the convert
value. -/
theorem decodeFold_buildLow (R : Nat) (hR : 0 < R) (e : Exclusion) :
    ∀ (k cv acc idx : Nat), 0 < idx →
      decodeFold R e (buildLow R k cv).1 acc idx
        = some (acc * R ^ k + cv % R ^ k) := by
  intro k
  induction k with
  | zero => intro cv acc idx _; simp [buildLow, decodeFold, Nat.mod_one]
  | succ k ih =>
    intro cv acc idx hidx
    rw [buildLow]
    simp only
    rw [decodeFold_append, ih (cv / R) acc idx hidx, Option.some_bind]
    have hd : cv % R < R := Nat.mod_lt _ hR
    rw [decodeFold, if_pos hd, if_neg (by
      intro hz
      have := hz.1
      rw [buildLow_length] at this
      omega)]
    rw [decodeFold]
    congr 1
    have hsplit : cv % (R ^ (k + 1)) = cv % R + R * (cv / R % R ^ k) := by
      have : (R : Nat) ^ (k + 1) = R * R ^ k := by ring
      rw [this, Nat.mod_mul]
    rw [hsplit]
    ring

/-- Decoding the full created string (non-`FirstZero` head) recovers the
convert value. -/
theorem decode_createOne_plain (R : Nat) (hR : 0 < R) (e : Exclusion)
    (he : e ≠ Exclusion.firstZero) (len cv : Nat) (h1 : 1 ≤ len)
    (hcv : cv < R ^ len) :
    decodeFold R e
      ((cv / R ^ (len - 1) % R) :: (buildLow R (len - 1) cv).1) 0 0
      = some cv := by
  rw [decodeFold, if_pos (Nat.mod_lt _ hR),
    if_neg (by intro hz; exact he hz.2)]
  rw [decodeFold_buildLow R hR e (len - 1) cv _ 1 (by omega)]
  have hdiv : cv / R ^ (len - 1) < R := by
    have hpow : R * R ^ (len - 1) = R ^ len := by
      have hps : R ^ (len - 1 + 1) = R ^ (len - 1) * R := pow_succ R (len - 1)
      have hlen : len - 1 + 1 = len := by omega
      rw [hlen] at hps
      rw [hps]
      ring
    rw [Nat.div_lt_iff_lt_mul (by positivity), hpow]
    exact hcv
  rw [Nat.mod_eq_of_lt hdiv, Nat.zero_mul, Nat.zero_add]
  congr 1
  rw [Nat.mul_comm]
  exact Nat.div_add_mod cv (R ^ (len - 1))

/-- Decoding the full created string under `FirstZero` recovers the convert
value. -/
theorem decode_createOne_firstZero (R : Nat) (hR : 2 ≤ R) (len cv : Nat)
    (h1 : 1 ≤ len) (hcv : cv < (R - 1) * R ^ (len - 1)) :
    decodeFold R Exclusion.firstZero
      ((cv / R ^ (len - 1) % (R - 1) + 1) :: (buildLow R (len - 1) cv).1) 0 0
      = some cv := by
  have hdiv : cv / R ^ (len - 1) < R - 1 := by
    rw [Nat.div_lt_iff_lt_mul (by positivity)]
    omega
  have hhead : cv / R ^ (len - 1) % (R - 1) + 1 < R := by
    have : cv / R ^ (len - 1) % (R - 1) < R - 1 := Nat.mod_lt _ (by omega)
    omega
  rw [decodeFold, if_pos hhead, if_pos ⟨rfl, rfl⟩,
    if_neg (by omega)]
  rw [Nat.mod_eq_of_lt hdiv, Nat.add_sub_cancel]
  rw [decodeFold_buildLow R (by omega) _ (len - 1) cv _ 1 (by omega)]
  congr 1
  rw [Nat.mul_comm]
  exact Nat.div_add_mod cv (R ^ (len - 1))

/-! ## All-numeric shift lemmas -/

theorem pow_succ_le_max (l : Nat) (hl : l + 1 ≤ MAXIMUM_STRING_LENGTH) :
    l ≤ MAXIMUM_STRING_LENGTH := by omega

/-- Forward/backward correspondence of the all-numeric shift: on the residual
ranges reached by the recursion, the forward shift succeeds, is between 10 and
`10^(l+1)`, and the backward shift at the shifted value recovers it. -/
theorem shift_round (R : Nat) (hR : 11 ≤ R) :
    ∀ l, l + 1 ≤ MAXIMUM_STRING_LENGTH →
      ∀ u, u < R ^ (l + 1) - 10 ^ (l + 1) →
      ∃ sh, allNumericShift R true l u = some sh ∧ 10 ≤ sh ∧
        sh ≤ 10 ^ (l + 1) ∧
        allNumericShift R false l (u + sh) = some sh := by
  intro l
  induction l with
  | zero =>
    intro _ u hu
    refine ⟨10, by rw [allNumericShift]; rfl, le_refl 10, by norm_num, ?_⟩
    rw [allNumericShift]
    have h10 : ¬ (u + 10 < 10) := by omega
    simp [h10]
  | succ l ih =>
    intro hl u hu
    have hl1 : l + 1 ≤ MAXIMUM_STRING_LENGTH := by omega
    have hl2 : l + 2 ≤ MAXIMUM_STRING_LENGTH := by omega
    have hpS : powerOfSize R (l + 1) = R ^ (l + 1) := powerOfSize_eq R (l + 1) hl1
    have hp10 : powerOf10 (l + 1) = 10 ^ (l + 1) := powerOf10_eq (l + 1) hl1
    have hp10' : powerOf10 (l + 2) = 10 ^ (l + 2) := powerOf10_eq (l + 2) hl2
    have hpowlt : (10 : Nat) ^ (l + 1) < R ^ (l + 1) :=
      Nat.pow_lt_pow_left (by omega) (by omega)
    have hgappos : 0 < R ^ (l + 1) - 10 ^ (l + 1) := by omega
    have hfwd_unfold : allNumericShift R true (l + 1) u
        = (if 10 ≤ u / (R ^ (l + 1) - 10 ^ (l + 1))
            then some (10 ^ (l + 2))
            else (allNumericShift R true l
                (u - u / (R ^ (l + 1) - 10 ^ (l + 1))
                  * (R ^ (l + 1) - 10 ^ (l + 1)))).map
              (fun shift =>
                u / (R ^ (l + 1) - 10 ^ (l + 1)) * 10 ^ (l + 1) + shift)) := by
      rw [allNumericShift]
      simp only [hpS, hp10, hp10', if_true]
    have hRpos : (0 : Nat) < R ^ (l + 1) := pow_pos (by omega) (l + 1)
    have hrev_unfold : ∀ v, allNumericShift R false (l + 1) v
        = (if 10 ≤ v / R ^ (l + 1)
            then some (10 ^ (l + 2))
            else (allNumericShift R false l
                (v - v / R ^ (l + 1) * R ^ (l + 1))).map
              (fun shift => v / R ^ (l + 1) * 10 ^ (l + 1) + shift)) := by
      intro v
      rw [allNumericShift]
      simp only [hpS, hp10, hp10', Bool.false_eq_true, if_false]
    by_cases hcase : 10 ≤ u / (R ^ (l + 1) - 10 ^ (l + 1))
    · -- the shift jumps to the next power of 10
      have h10l2 : (10 : Nat) ≤ 10 ^ (l + 2) := by
        calc (10 : Nat) = 10 ^ 1 := (pow_one 10).symm
        _ ≤ 10 ^ (l + 2) := Nat.pow_le_pow_right (by norm_num) (by omega)
      refine ⟨10 ^ (l + 2), ?_, h10l2, le_refl _, ?_⟩
      · rw [hfwd_unfold, if_pos hcase]
      · have hularge : 10 * (R ^ (l + 1) - 10 ^ (l + 1)) ≤ u :=
          (Nat.le_div_iff_mul_le hgappos).mp hcase
        have hrev_ge : 10 ≤ (u + 10 ^ (l + 2)) / R ^ (l + 1) := by
          rw [Nat.le_div_iff_mul_le hRpos]
          have h12 : (10 : Nat) ^ (l + 2) = 10 * 10 ^ (l + 1) := by ring
          omega
        rw [hrev_unfold, if_pos hrev_ge]
    · -- the shift recurses one level down
      push_neg at hcase
      set P := R ^ (l + 1) - 10 ^ (l + 1) with hP
      set g := u / P with hgdef
      have hg9 : g ≤ 9 := by omega
      have hdm := Nat.div_add_mod u P
      rw [← hgdef] at hdm
      have hcomm : P * g = g * P := Nat.mul_comm P g
      have hrval : u - g * P = u % P := by omega
      have hrlt : u % P < P := Nat.mod_lt _ hgappos
      obtain ⟨sh₀, hfwd₀, h10₀, hle₀, hrev₀⟩ := ih hl1 (u % P) (by omega)
      refine ⟨g * 10 ^ (l + 1) + sh₀, ?_, by omega, ?_, ?_⟩
      · rw [hfwd_unfold, if_neg (by omega), hrval, hfwd₀]
        rfl
      · have hgb : g * 10 ^ (l + 1) ≤ 9 * 10 ^ (l + 1) :=
          Nat.mul_le_mul_right _ hg9
        have h12 : (10 : Nat) ^ (l + 2) = 10 * 10 ^ (l + 1) := by ring
        omega
      · -- reverse direction at the shifted value
        have hsum : u + (g * 10 ^ (l + 1) + sh₀)
            = R ^ (l + 1) * g + (u % P + sh₀) := by
          have hPR : P + 10 ^ (l + 1) = R ^ (l + 1) := by omega
          have hsplit : R ^ (l + 1) * g = P * g + 10 ^ (l + 1) * g := by
            rw [← hPR]; ring
          have hc2 : 10 ^ (l + 1) * g = g * 10 ^ (l + 1) := Nat.mul_comm _ _
          omega
        have hrem : u % P + sh₀ < R ^ (l + 1) := by omega
        have hdiv : (R ^ (l + 1) * g + (u % P + sh₀)) / R ^ (l + 1)
            = g := by
          rw [Nat.mul_add_div hRpos, Nat.div_eq_of_lt hrem]
          omega
        rw [hrev_unfold, hsum, hdiv, if_neg (by omega)]
        have hsub : R ^ (l + 1) * g + (u % P + sh₀) - g * R ^ (l + 1)
            = u % P + sh₀ := by
          have hc3 : R ^ (l + 1) * g = g * R ^ (l + 1) := Nat.mul_comm _ _
          omega
        rw [hsub, hrev₀]
        rfl

/-- Top-level shift round trip: `create` calls the shift at recursion index
`len`, where the value is below the gap, so the first level contributes no
gap multiples and the shift stays at most `10^len`. -/
theorem shift_top (R : Nat) (hR : 11 ≤ R) (L : Nat) (hL1 : 1 ≤ L)
    (hL : L ≤ MAXIMUM_STRING_LENGTH) (u : Nat) (hu : u < R ^ L - 10 ^ L) :
    ∃ sh, allNumericShift R true L u = some sh ∧ 10 ≤ sh ∧ sh ≤ 10 ^ L ∧
      allNumericShift R false L (u + sh) = some sh := by
  obtain ⟨l, rfl⟩ : ∃ l, L = l + 1 := ⟨L - 1, by omega⟩
  have hl1 : l + 1 ≤ MAXIMUM_STRING_LENGTH := hL
  have hpS : powerOfSize R (l + 1) = R ^ (l + 1) := powerOfSize_eq R (l + 1) hl1
  have hp10 : powerOf10 (l + 1) = 10 ^ (l + 1) := powerOf10_eq (l + 1) hl1
  have hpowlt : (10 : Nat) ^ (l + 1) < R ^ (l + 1) :=
    Nat.pow_lt_pow_left (by omega) (by omega)
  obtain ⟨sh, hfwd, h10, hle, hrev⟩ := shift_round R hR l hl1 u hu
  have hg0 : u / (R ^ (l + 1) - 10 ^ (l + 1)) = 0 := Nat.div_eq_of_lt hu
  refine ⟨sh, ?_, h10, hle, ?_⟩
  · rw [allNumericShift]
    simp only [hpS, hp10, if_true]
    rw [hg0, if_neg (by omega)]
    simp only [Nat.zero_mul, Nat.sub_zero, Nat.zero_add]
    rw [hfwd]
    rfl
  · rw [allNumericShift]
    simp only [hpS, hp10, Bool.false_eq_true, if_false]
    have hg0' : (u + sh) / R ^ (l + 1) = 0 := Nat.div_eq_of_lt (by omega)
    rw [hg0', if_neg (by omega)]
    simp only [Nat.zero_mul, Nat.sub_zero, Nat.zero_add]
    rw [hrev]
    rfl

/-- The created string always has the requested length. -/
theorem createOne_length (R z : Nat) (e : Exclusion) (len tv : Nat) :
    (createOne R z e len tv).length = len := by
  rw [createOne]
  by_cases h0 : len = 0
  · rw [if_pos h0, h0]
    rfl
  · rw [if_neg h0]
    simp only [List.length_cons, buildLow_length]
    omega

theorem createOne_noneEx (R z len tv : Nat) (h0 : len ≠ 0) :
    createOne R z Exclusion.noneEx len tv
      = (tv / R ^ (len - 1) % R) :: (buildLow R (len - 1) tv).1 := by
  rw [createOne, if_neg h0]
  simp [buildLow_snd]

theorem createOne_firstZero_eq (R z len tv : Nat) (h0 : len ≠ 0) :
    createOne R z Exclusion.firstZero len tv
      = (tv / R ^ (len - 1) % (R - 1) + 1) :: (buildLow R (len - 1) tv).1 := by
  rw [createOne, if_neg h0]
  simp [buildLow_snd]

theorem createOne_allNumeric (R z len tv cv : Nat) (h0 : len ≠ 0)
    (hcv : cv = if (allZerosValues R z).getD len 0 ≤ tv then
        tv + (allNumericShift R true len
          (tv - (allZerosValues R z).getD len 0)).getD 0
      else tv) :
    createOne R z Exclusion.allNumeric len tv
      = (cv / R ^ (len - 1) % R) :: (buildLow R (len - 1) cv).1 := by
  rw [createOne, if_neg h0]
  by_cases hle : (allZerosValues R z).getD len 0 ≤ tv
  · rw [if_pos hle] at hcv
    subst hcv
    simp only [List.getD_eq_getElem?_getD] at hle ⊢
    simp [hle, buildLow_snd]
  · rw [if_neg hle] at hcv
    subst hcv
    simp only [List.getD_eq_getElem?_getD] at hle ⊢
    simp [hle, buildLow_snd]

/-- Decoding and unshifting a created string recovers the transformed value. -/
theorem valueForPre_createOne (R z : Nat) (e : Exclusion) (len : Nat)
    (hlen : len ≤ MAXIMUM_STRING_LENGTH) (tv : Nat)
    (htv : tv < exclusionDomain R e len) :
    valueForPre R z e (createOne R z e len tv) = some tv := by
  cases e with
  | noneEx =>
    rw [exclusionDomain_none R len hlen] at htv
    by_cases h0 : len = 0
    · subst h0
      have h1 : tv = 0 := by simpa using htv
      subst h1
      rfl
    · have hR : 0 < R := by
        rcases Nat.eq_zero_or_pos R with h | h
        · subst h
          rw [Nat.zero_pow (by omega)] at htv
          omega
        · exact h
      rw [createOne_noneEx R z len tv h0]
      have hdec := decode_createOne_plain R hR Exclusion.noneEx (by decide)
        len tv (by omega) htv
      rw [valueForPre, hdec]
      rfl
  | firstZero =>
    by_cases h0 : len = 0
    · subst h0
      rw [exclusionDomain_firstZero_zero] at htv
      omega
    · rw [exclusionDomain_firstZero R len (by omega) hlen] at htv
      have hR : 2 ≤ R := by
        by_contra h
        push_neg at h
        have hz1 : R - 1 = 0 := by omega
        rw [hz1, Nat.zero_mul] at htv
        omega
      rw [createOne_firstZero_eq R z len tv h0]
      have hdec := decode_createOne_firstZero R hR len tv (by omega) htv
      rw [valueForPre, hdec]
      rfl
  | allNumeric =>
    by_cases h0 : len = 0
    · subst h0
      rw [exclusionDomain_allNumeric R 0 (by omega)] at htv
      norm_num at htv
    · have h1 : 1 ≤ len := by omega
      rw [exclusionDomain_allNumeric R len hlen] at htv
      have hR : 11 ≤ R := by
        by_contra h
        push_neg at h
        have hle : R ^ len ≤ 10 ^ len := Nat.pow_le_pow_left (by omega) len
        omega
      have hRpow : tv < R ^ len := by
        have hle : (10 : Nat) ^ len ≤ R ^ len := Nat.pow_le_pow_left (by omega) len
        have h10pos : (0 : Nat) < 10 ^ len := pow_pos (by norm_num) len
        omega
      by_cases hle : (allZerosValues R z).getD len 0 ≤ tv
      · obtain ⟨sh, hfwd, h10, hshle, hrev⟩ :=
          shift_top R hR len h1 hlen (tv - (allZerosValues R z).getD len 0)
            (by omega)
        rw [createOne_allNumeric R z len tv (tv + sh) h0
          (by rw [if_pos hle, hfwd]; rfl)]
        have hcvlt : tv + sh < R ^ len := by omega
        have hdec := decode_createOne_plain R (by omega) Exclusion.allNumeric
          (by decide) len (tv + sh) h1 hcvlt
        have hslen : (((tv + sh) / R ^ (len - 1) % R)
            :: (buildLow R (len - 1) (tv + sh)).1).length = len := by
          simp [buildLow_length]
          omega
        rw [valueForPre, hslen, hdec, Option.some_bind]
        rw [if_pos rfl, if_pos (by omega :
          (allZerosValues R z).getD len 0 ≤ tv + sh)]
        have harg : tv + sh - (allZerosValues R z).getD len 0
            = tv - (allZerosValues R z).getD len 0 + sh := by omega
        rw [harg, hrev]
        simp
      · rw [createOne_allNumeric R z len tv tv h0 (by rw [if_neg hle])]
        have hdec := decode_createOne_plain R (by omega) Exclusion.allNumeric
          (by decide) len tv h1 hRpow
        have hslen : ((tv / R ^ (len - 1) % R)
            :: (buildLow R (len - 1) tv).1).length = len := by
          simp [buildLow_length]
          omega
        rw [valueForPre, hslen, hdec, Option.some_bind]
        rw [if_pos rfl, if_neg hle]

/-- **C2**: for every supported exclusion, every string length from 0 to 40,
every tweak, and every value below the admissible domain for that exclusion
and length, the codec round-trips: `valueFor` applied to the string produced
by `create` returns the original value. -/
theorem claim_C2 (R z : Nat) (e : Exclusion) (len : Nat) (tweak : Option Nat)
    (hlen : len ≤ MAXIMUM_STRING_LENGTH) (v : Nat)
    (hv : v < exclusionDomain R e len) :
    (codecCreate R z e len tweak v).bind (codecValueFor R z e tweak)
      = some v := by
  have hd0 : exclusionDomain R e len ≠ 0 := by omega
  simp only [codecCreate]
  rw [if_neg (show ¬ MAXIMUM_STRING_LENGTH < len by omega), if_neg hd0,
    if_pos hv, Option.some_bind]
  have htv : (Transformer.get (exclusionDomain R e len) tweak).forwardV v
      < exclusionDomain R e len := getT_forward_lt _ _ _ hv
  simp only [codecValueFor]
  rw [createOne_length]
  rw [if_neg (show ¬ MAXIMUM_STRING_LENGTH < len by omega)]
  rw [valueForPre_createOne R z e len hlen _ htv, Option.some_bind]
  rw [if_neg hd0, if_pos htv]
  rw [getT_reverse_forward _ _ _ hv]

/-- Witness for C2: radix 16, zero glyph at index 0, `AllNumeric` exclusion,
length 2, tweak 1, value 5. -/
theorem claim_C2_witness :
    (codecCreate 16 0 Exclusion.allNumeric 2 (some 1) 5).bind
      (codecValueFor 16 0 Exclusion.allNumeric (some 1)) = some 5 :=
  claim_C2 16 0 Exclusion.allNumeric 2 (some 1)
    (by norm_num [MAXIMUM_STRING_LENGTH]) 5
    (by rw [exclusionDomain_allNumeric 16 2
        (by norm_num [MAXIMUM_STRING_LENGTH])]
        norm_num)

/-! ## Exclusion correctness of created strings -/

theorem div_div_pow (w R j : Nat) : w / R / R ^ j = w / R ^ (j + 1) := by
  rw [Nat.div_div_eq_div_mul]
  congr 1
  ring

/-- Every low base-`R` digit occurs in the low-digit list. -/
theorem buildLow_mem_digit (R : Nat) :
    ∀ (k cv i : Nat), i < k → cv / R ^ i % R ∈ (buildLow R k cv).1 := by
  intro k
  induction k with
  | zero => intro cv i hi; omega
  | succ k ih =>
    intro cv i hi
    rw [buildLow]
    simp only [List.mem_append, List.mem_singleton]
    rcases i with _ | j
    · right
      simp
    · left
      have hmem := ih (cv / R) j (by omega)
      rwa [div_div_pow] at hmem

/-- A digit of a remainder modulo a larger power is a digit of the value. -/
theorem mod_pow_div_digit (R t i m : Nat) (him : i < m) :
    t % R ^ m / R ^ i % R = t / R ^ i % R := by
  have hm : R ^ m = R ^ i * R ^ (m - i) := by
    rw [← pow_add]
    congr 1
    omega
  rw [hm, Nat.mod_mul_right_div_self]
  exact Nat.mod_mod_of_dvd _ (dvd_pow_self R (by omega))

/-- If every base-`R` digit of `w` is at least `z` and below `z + 10`, then
`w` is at least the all-`z` pivot, and every digit of `w` minus the pivot is
numeric (at most 9). -/
theorem allZeros_digit_sub (R z : Nat) (hz : z + 10 ≤ R) :
    ∀ (len w : Nat), w < R ^ len →
      (∀ i, i < len → z ≤ w / R ^ i % R ∧ w / R ^ i % R < z + 10) →
      allZerosRec R z len ≤ w ∧
        ∀ i, i < len → (w - allZerosRec R z len) / R ^ i % R ≤ 9 := by
  intro len
  induction len with
  | zero => intro w _ _; exact ⟨Nat.zero_le _, fun i hi => by omega⟩
  | succ len ih =>
    intro w hw hdig
    have hRpos : 0 < R := by omega
    have hwdiv : w / R < R ^ len := by
      rw [Nat.div_lt_iff_lt_mul hRpos]
      have hps : R ^ len * R = R ^ (len + 1) := by ring
      omega
    have hdig' : ∀ i, i < len →
        z ≤ w / R / R ^ i % R ∧ w / R / R ^ i % R < z + 10 := by
      intro i hi
      rw [div_div_pow]
      exact hdig (i + 1) (by omega)
    obtain ⟨hge, hdigs⟩ := ih (w / R) hwdiv hdig'
    have hd0 := hdig 0 (by omega)
    rw [pow_zero, Nat.div_one] at hd0
    have hdm := Nat.div_add_mod w R
    have haz : allZerosRec R z (len + 1) = allZerosRec R z len * R + z := rfl
    have hmul : allZerosRec R z len * R ≤ w / R * R :=
      Nat.mul_le_mul_right _ hge
    have hcomm : R * (w / R) = w / R * R := Nat.mul_comm _ _
    have hge' : allZerosRec R z (len + 1) ≤ w := by omega
    refine ⟨hge', ?_⟩
    have hsubmul : (w / R - allZerosRec R z len) * R
        = w / R * R - allZerosRec R z len * R := Nat.sub_mul _ _ _
    have ht : w - allZerosRec R z (len + 1)
        = (w / R - allZerosRec R z len) * R + (w % R - z) := by omega
    intro i hi
    rcases i with _ | j
    · rw [pow_zero, Nat.div_one, ht]
      have hmod : ((w / R - allZerosRec R z len) * R + (w % R - z)) % R
          = (w % R - z) % R := by
        rw [Nat.add_comm, Nat.add_mul_mod_self_right]
      rw [hmod, Nat.mod_eq_of_lt (by omega)]
      omega
    · rw [← div_div_pow]
      have hlt : w % R - z < R := by omega
      have hdivR : (w - allZerosRec R z (len + 1)) / R
          = w / R - allZerosRec R z len := by
        rw [ht, Nat.mul_comm, Nat.mul_add_div hRpos,
          Nat.div_eq_of_lt hlt]
        omega
      rw [hdivR]
      exact hdigs j (by omega)

/-- The reverse shift fails (the "string must not be all-numeric" error)
whenever every base-`R` digit of the value is numeric. -/
theorem shiftR_none (R : Nat) (hR : 11 ≤ R) :
    ∀ l, l ≤ MAXIMUM_STRING_LENGTH →
      ∀ t, t < R ^ (l + 1) → (∀ i, i ≤ l → t / R ^ i % R ≤ 9) →
      allNumericShift R false l t = none := by
  intro l
  induction l with
  | zero =>
    intro _ t ht hdig
    have h0 := hdig 0 (by omega)
    rw [pow_zero, Nat.div_one] at h0
    have hmod : t % R = t := Nat.mod_eq_of_lt (by simpa using ht)
    rw [allNumericShift]
    have ht10 : t < 10 := by omega
    simp [ht10]
  | succ l ih =>
    intro hl t ht hdig
    have hl1 : l + 1 ≤ MAXIMUM_STRING_LENGTH := hl
    have hpS : powerOfSize R (l + 1) = R ^ (l + 1) := powerOfSize_eq R (l + 1) hl1
    have hp10 : powerOf10 (l + 1) = 10 ^ (l + 1) := powerOf10_eq (l + 1) hl1
    have hRpos : (0 : Nat) < R ^ (l + 1) := pow_pos (by omega) _
    have hgdig := hdig (l + 1) (by omega)
    have hglt : t / R ^ (l + 1) < R := by
      have hps : R * R ^ (l + 1) = R ^ (l + 1 + 1) := by ring
      rw [Nat.div_lt_iff_lt_mul hRpos, hps]
      exact ht
    have hgmod : t / R ^ (l + 1) % R = t / R ^ (l + 1) := Nat.mod_eq_of_lt hglt
    rw [hgmod] at hgdig
    rw [allNumericShift]
    simp only [hpS, hp10, Bool.false_eq_true, if_false]
    rw [if_neg (by omega)]
    have hrem : t - t / R ^ (l + 1) * R ^ (l + 1) = t % R ^ (l + 1) := by
      rw [Nat.sub_eq_iff_eq_add (Nat.div_mul_le_self t _)]
      exact (Nat.mod_add_div' t (R ^ (l + 1))).symm
    rw [hrem, ih (by omega) (t % R ^ (l + 1)) (Nat.mod_lt _ hRpos)
      (fun i hi => by
        rw [mod_pow_div_digit R t i (l + 1) (by omega)]
        exact hdig i (by omega))]
    rfl

/-- The `AllNumeric` rendering never produces a string whose characters all
lie in the digit range `z .. z+9`. -/
theorem createOne_not_allNumeric (R z len tv : Nat) (hzR : z + 10 ≤ R)
    (hR : 11 ≤ R) (h1 : 1 ≤ len) (hlen : len ≤ MAXIMUM_STRING_LENGTH)
    (htv : tv < R ^ len - 10 ^ len) :
    ¬ (∀ c ∈ createOne R z Exclusion.allNumeric len tv,
        z ≤ c ∧ c < z + 10) := by
  intro hall
  have h0 : len ≠ 0 := by omega
  have h10pos : (0 : Nat) < 10 ^ len := pow_pos (by norm_num) len
  have h10le : (10 : Nat) ^ len ≤ R ^ len := Nat.pow_le_pow_left (by omega) len
  by_cases hle : (allZerosValues R z).getD len 0 ≤ tv
  · obtain ⟨sh, hfwd, hsh10, hshle, hrev⟩ :=
      shift_top R hR len h1 hlen (tv - (allZerosValues R z).getD len 0)
        (by omega)
    rw [createOne_allNumeric R z len tv (tv + sh) h0
      (by rw [if_pos hle, hfwd]; rfl)] at hall
    have hcvlt : tv + sh < R ^ len := by omega
    have hdig : ∀ i, i < len →
        z ≤ (tv + sh) / R ^ i % R ∧ (tv + sh) / R ^ i % R < z + 10 := by
      intro i hi
      rcases Nat.lt_or_ge i (len - 1) with hi' | hi'
      · exact hall _ (List.mem_cons_of_mem _
          (buildLow_mem_digit R (len - 1) (tv + sh) i hi'))
      · have hieq : i = len - 1 := by omega
        subst hieq
        exact hall _ (List.mem_cons_self _ _)
    obtain ⟨hge, hdigs⟩ := allZeros_digit_sub R z hzR len (tv + sh) hcvlt hdig
    have haz : (allZerosValues R z).getD len 0 = allZerosRec R z len :=
      allZerosValues_getD R z len hlen
    rw [haz] at hle
    have htarg : tv + sh - allZerosRec R z len
        = tv - (allZerosValues R z).getD len 0 + sh := by
      rw [haz]
      omega
    have hnone : allNumericShift R false len
        (tv + sh - allZerosRec R z len) = none := by
      apply shiftR_none R hR len hlen
      · have hlt : tv + sh - allZerosRec R z len ≤ tv + sh := by omega
        have hpow : R ^ len < R ^ (len + 1) :=
          Nat.pow_lt_pow_succ (by omega)
        omega
      · intro i hi
        rcases Nat.lt_or_ge i len with hi' | hi'
        · exact hdigs i hi'
        · have hieq : i = len := by omega
          rw [hieq]
          have hdiv0 : (tv + sh - allZerosRec R z len) / R ^ len = 0 :=
            Nat.div_eq_of_lt (by omega)
          rw [hdiv0]
          simp
    rw [htarg, hrev] at hnone
    cases hnone
  · rw [createOne_allNumeric R z len tv tv h0 (by rw [if_neg hle])] at hall
    have hRtv : tv < R ^ len := by omega
    have hdig : ∀ i, i < len →
        z ≤ tv / R ^ i % R ∧ tv / R ^ i % R < z + 10 := by
      intro i hi
      rcases Nat.lt_or_ge i (len - 1) with hi' | hi'
      · exact hall _ (List.mem_cons_of_mem _
          (buildLow_mem_digit R (len - 1) tv i hi'))
      · have hieq : i = len - 1 := by omega
        subst hieq
        exact hall _ (List.mem_cons_self _ _)
    obtain ⟨hge, _⟩ := allZeros_digit_sub R z hzR len tv hRtv hdig
    rw [allZerosValues_getD R z len hlen] at hle
    exact hle hge

/-- Inversion of a successful `create`: the length and value checks passed
and the output is the rendered transformed value. -/
theorem codecCreate_inv (R z : Nat) (e : Exclusion) (len : Nat)
    (tweak : Option Nat) (v : Nat) (s : List Nat)
    (h : codecCreate R z e len tweak v = some s) :
    len ≤ MAXIMUM_STRING_LENGTH ∧ 0 < exclusionDomain R e len ∧
      v < exclusionDomain R e len ∧
      s = createOne R z e len
        ((Transformer.get (exclusionDomain R e len) tweak).forwardV v) := by
  simp only [codecCreate] at h
  by_cases hm : MAXIMUM_STRING_LENGTH < len
  · rw [if_pos hm] at h
    cases h
  · rw [if_neg hm] at h
    by_cases hd : exclusionDomain R e len = 0
    · rw [if_pos hd] at h
      cases h
    · rw [if_neg hd] at h
      by_cases hv : v < exclusionDomain R e len
      · rw [if_pos hv] at h
        injection h with h
        exact ⟨by omega, by omega, hv, h.symm⟩
      · rw [if_neg hv] at h
        cases h

/-- **C4**: for admissible values and any tweak, the created string satisfies
its exclusion: under `FirstZero` the first character index is never 0 (the
zero glyph is skipped because the leading digit is taken modulo `radix − 1`
and offset by one), and under `AllNumeric` (with the ten digit glyphs at
indexes `z .. z+9`, as the constructor validates) the created string never
consists entirely of digit glyphs. -/
theorem claim_C4 (R z len : Nat) (tweak : Option Nat) (v : Nat)
    (sF sA : List Nat) (hzR : z + 10 ≤ R)
    (hF : codecCreate R z Exclusion.firstZero len tweak v = some sF)
    (hA : codecCreate R z Exclusion.allNumeric len tweak v = some sA) :
    sF.head? ≠ some 0 ∧ ¬ (∀ c ∈ sA, z ≤ c ∧ c < z + 10) := by
  obtain ⟨hlenF, hdF, hvF, hsF⟩ := codecCreate_inv _ _ _ _ _ _ _ hF
  obtain ⟨hlenA, hdA, hvA, hsA⟩ := codecCreate_inv _ _ _ _ _ _ _ hA
  constructor
  · have h0 : len ≠ 0 := by
      intro h
      subst h
      rw [exclusionDomain_firstZero_zero] at hdF
      omega
    rw [hsF, createOne_firstZero_eq _ _ _ _ h0]
    simp
  · have h0 : len ≠ 0 := by
      intro h
      subst h
      rw [exclusionDomain_allNumeric R 0 (by omega)] at hdA
      norm_num at hdA
    have h1 : 1 ≤ len := by omega
    have hdpow := exclusionDomain_allNumeric R len hlenA
    rw [hdpow] at hdA
    have hR : 11 ≤ R := by
      by_contra hc
      push_neg at hc
      have hpow : R ^ len ≤ 10 ^ len := Nat.pow_le_pow_left (by omega) len
      omega
    have htvA : (Transformer.get (exclusionDomain R Exclusion.allNumeric len)
        tweak).forwardV v < R ^ len - 10 ^ len :=
      lt_of_lt_of_le
        (getT_forward_lt (exclusionDomain R Exclusion.allNumeric len)
          tweak v hvA) hdpow.le
    rw [hsA]
    exact createOne_not_allNumeric R z len _ hzR hR h1 hlenA htvA

/-- Witness for C4: radix 12, digit glyphs at indexes 1..10, length 2,
no tweak, value 5. -/
theorem claim_C4_witness :
    ([1, 5] : List Nat).head? ≠ some 0 ∧
      ¬ (∀ c ∈ ([0, 5] : List Nat), 1 ≤ c ∧ c < 1 + 10) :=
  claim_C4 12 1 2 none 5 [1, 5] [0, 5] (by norm_num) (by decide) (by decide)

end AidcUtility
